import Mathlib

/-!
# Verification of the omen-rgb keyboard controller core

A shallow embedding, in Lean, of the color-handling core of `omen-rgb.py`:
hex color conversion (`hex_to_rgb` / `rgb_to_hex`), the hardware sink
(`write_color`), the 20-step color transition (`set_color`), the animation
threads (rainbow hue rotation and two-color alternation), and the
controller's thread-slot management (`activate_mode`, `start_thread`,
`stop_active_thread`, `apply_static_color`, `exit_app`).

Python evaluates the transition interpolation in IEEE-754 binary64
arithmetic.  That arithmetic is modelled exactly: a float is a pair of an
integer mantissa and a binary exponent (`FP`), and every arithmetic step
rounds to 53 significant bits with round-to-nearest, ties-to-even, which is
precisely the binary64 behaviour for the magnitudes that occur here (far
from overflow and subnormals).  The rational value of an `FP` (`FP.val`)
is used only in specification statements and proofs.
-/

set_option maxRecDepth 40000

namespace OmenRgb

/-! ## Hex string utilities (omen-rgb.py lines 58-62) -/

/-- Value of one hexadecimal digit character, as accepted by Python `int(_, 16)`. -/
def hexDigitVal (c : Char) : Option ℕ :=
  if '0' ≤ c ∧ c ≤ '9' then some (c.toNat - 48)
  else if 'a' ≤ c ∧ c ≤ 'f' then some (c.toNat - 87)
  else if 'A' ≤ c ∧ c ≤ 'F' then some (c.toNat - 55)
  else none

/-- Python `int(s, 16)` on a list of characters: fails (raises `ValueError`)
on the empty string or on a character that is not a hex digit. -/
def parseHex : List Char → Option ℕ
  | [] => none
  | cs => cs.foldl (fun acc c => acc.bind fun a => (hexDigitVal c).map fun v => 16 * a + v) (some 0)

/-- Line 58: `hex_to_rgb(h)` is `tuple(int(h[i:i+2], 16) for i in (0, 2, 4))`.
Slicing is modelled on the character list; `none` is the case where Python raises. -/
def hex_to_rgb (h : String) : Option (ℤ × ℤ × ℤ) :=
  match parseHex (h.data.take 2), parseHex ((h.data.drop 2).take 2),
      parseHex ((h.data.drop 4).take 2) with
  | some r, some g, some b => some ((r : ℤ), (g : ℤ), (b : ℤ))
  | _, _, _ => none

/-- Lowercase hex digit character for a value below 16. -/
def hexChar (v : ℕ) : Char := if v < 10 then Char.ofNat (48 + v) else Char.ofNat (87 + v)

/-- Hex digits of `n`, most significant first (empty for 0); fuel-driven so
that the kernel can evaluate it. -/
def hexDigitsAux : ℕ → ℕ → List Char
  | 0, _ => []
  | f + 1, n => if n = 0 then [] else hexDigitsAux f (n / 16) ++ [hexChar (n % 16)]

/-- Hex digits of `n`, most significant first; `[]` for `n = 0`. -/
def hexDigits (n : ℕ) : List Char := hexDigitsAux n n

/-- Python `format(v, "02x")`: lowercase hex, left zero-padded to total width 2
(the sign counts towards the width for negative values). -/
def fmt02x (v : ℤ) : List Char :=
  if v < 0 then '-' :: hexDigits v.natAbs
  else if v = 0 then ['0', '0']
  else if v < 16 then '0' :: hexDigits v.natAbs
  else hexDigits v.natAbs

/-- Line 61: `rgb_to_hex(c)` is the f-string with three `02x` fields. -/
def rgb_to_hex (c : ℤ × ℤ × ℤ) : String :=
  ⟨fmt02x c.1 ++ fmt02x c.2.1 ++ fmt02x c.2.2⟩

/-- Python `str.lower` on one character, restricted to ASCII (every string it
is applied to in this program is an ASCII hex color string). -/
def lowerChar (c : Char) : Char :=
  if 'A' ≤ c ∧ c ≤ 'Z' then Char.ofNat (c.toNat + 32) else c

/-- Python `str.lower`, restricted to ASCII strings. -/
def strLower (s : String) : String := ⟨s.data.map lowerChar⟩

/-- A character is a lowercase hex digit. -/
def isLowerHexDigit (c : Char) : Prop := ('0' ≤ c ∧ c ≤ '9') ∨ ('a' ≤ c ∧ c ≤ 'f')

instance (c : Char) : Decidable (isLowerHexDigit c) := by
  unfold isLowerHexDigit; infer_instance

/-! ## Exact model of IEEE-754 binary64 arithmetic

Every double is a rational `man * 2 ^ exp`.  Operations compute the exact
result as an integer mantissa (alignment and products of integers are
exact) and then round once to 53 significant bits, round-to-nearest with
ties to even — exactly what binary64 does in the range used by this
program.  All computations are on `ℕ`/`ℤ`, so the kernel can evaluate
them; `ℚ` appears only in value semantics (`FP.val`) for the proofs. -/

/-- Fuel-driven floor of the base-2 logarithm (`nlog2 n` is `⌊log₂ n⌋` for `n ≥ 1`). -/
def log2fuel : ℕ → ℕ → ℕ
  | 0, _ => 0
  | f + 1, n => if n ≤ 1 then 0 else log2fuel f (n / 2) + 1

/-- Floor of the base-2 logarithm, 0 for 0. -/
def nlog2 (n : ℕ) : ℕ := log2fuel n n

/-- Round `a / b` to the nearest integer, ties to even. -/
def rne (a b : ℕ) : ℕ :=
  let q := a / b
  let r := a % b
  if 2 * r < b then q
  else if b < 2 * r then q + 1
  else if q % 2 = 0 then q else q + 1

/-- A binary64 value `man * 2 ^ exp` (exponent range is unbounded in the
model; the program's values are far from overflow and subnormals). -/
structure FP where
  man : ℤ
  exp : ℤ
  deriving DecidableEq

/-- The exact rational value of a float. -/
def FP.val (x : FP) : ℚ := (x.man : ℚ) * (2 : ℚ) ^ x.exp

/-- Round a nonnegative integer mantissa at exponent `e` to 53 bits. -/
def round53n (M : ℕ) (e : ℤ) : ℕ × ℤ :=
  if M < 2 ^ 53 then (M, e)
  else
    let s := nlog2 M - 52
    (rne M (2 ^ s), e + s)

/-- Round an integer mantissa at exponent `e` to 53 bits (binary64 rounding
of the exact value `M * 2 ^ e`). -/
def round53 (M : ℤ) (e : ℤ) : FP :=
  let p := round53n M.natAbs e
  ⟨if M < 0 then -(p.1 : ℤ) else (p.1 : ℤ), p.2⟩

/-- Floor of `log₂ (n / d)` for `n, d ≥ 1`. -/
def qexp (n d : ℕ) : ℤ :=
  let L : ℤ := (nlog2 n : ℤ) - (nlog2 d : ℤ)
  if d * 2 ^ L.toNat ≤ n * 2 ^ (-L).toNat then L else L - 1

/-- Correctly rounded `n / d` for `n, d ≥ 1`: a mantissa in `[2^52, 2^53]`
together with its exponent. -/
def divRnd (n d : ℕ) : ℕ × ℤ :=
  let e := qexp n d
  let k := 52 - e
  let m := if 0 ≤ k then rne (n * 2 ^ k.toNat) d else rne n (d * 2 ^ (-k).toNat)
  (m, e - 52)

/-- Binary64 quotient of an integer by a positive integer (Python `a / b`
true division of ints). -/
def fdivZ (a : ℤ) (b : ℕ) : FP :=
  if a = 0 then ⟨0, 0⟩
  else
    let p := divRnd a.natAbs b
    ⟨if a < 0 then -(p.1 : ℤ) else (p.1 : ℤ), p.2⟩

/-- Binary64 product of an exact integer and a float (Python `int * float`:
the int converts exactly, the product rounds once). -/
def fmulZ (d : ℤ) (t : FP) : FP := round53 (d * t.man) t.exp

/-- Binary64 sum of an exact integer and a float: align exactly, round once. -/
def faddZ (r : ℤ) (x : FP) : FP :=
  if 0 ≤ x.exp then round53 (r + x.man * 2 ^ x.exp.toNat) 0
  else round53 (r * 2 ^ (-x.exp).toNat + x.man) x.exp

/-- Binary64 sum of two floats: align exactly, round once. -/
def faddFP (x y : FP) : FP :=
  if x.exp ≤ y.exp then round53 (x.man + y.man * 2 ^ (y.exp - x.exp).toNat) x.exp
  else round53 (x.man * 2 ^ (x.exp - y.exp).toNat + y.man) y.exp

/-- Binary64 product of two floats: exact product, round once. -/
def fmulFP (x y : FP) : FP := round53 (x.man * y.man) (x.exp + y.exp)

/-- Binary64 quotient of a float by a positive integer. -/
def fdivFP (x : FP) (b : ℕ) : FP :=
  if x.man = 0 then ⟨0, 0⟩
  else
    let p := divRnd x.man.natAbs b
    ⟨if x.man < 0 then -(p.1 : ℤ) else (p.1 : ℤ), x.exp + p.2⟩

/-- Python `int(_)` on a float: truncation toward zero. -/
def FP.toIntTrunc (x : FP) : ℤ :=
  if 0 ≤ x.exp then x.man * 2 ^ x.exp.toNat
  else
    let s := (-x.exp).toNat
    if 0 ≤ x.man then ((x.man.natAbs / 2 ^ s : ℕ) : ℤ) else -((x.man.natAbs / 2 ^ s : ℕ) : ℤ)

/-! ## The hardware sink and the transition engine (lines 64-95) -/

/-- Classification of the exceptions `write_color` can catch (line 73-76). -/
inductive IoError
  | permission
  | missing
  | other
  deriving DecidableEq

/-- Outcome of one attempted sysfs write, supplied as an oracle. -/
inductive WriteOutcome
  | ok
  | fail (e : IoError)
  deriving DecidableEq

/-- The raw `open(ZONE_PATH).write(col_hex)` I/O attempt: succeeds or raises. -/
def rawWrite (outcome : WriteOutcome) : Except IoError Unit :=
  match outcome with
  | .ok => .ok ()
  | .fail e => .error e

/-- Lines 66-76, `write_color(col_hex)`: try the raw write; on success set the
global `_current_hardware_color`; on `PermissionError` or any other exception
print to stderr and return normally.  The returned `Except` is what the
caller observes: it is `Except.ok ()` on every path because both handlers
swallow the exception. -/
def write_color (outcome : WriteOutcome) (col_hex : String) (cur : Option String) :
    Option String × Except IoError Unit :=
  match rawWrite outcome with
  | .ok _ => (some col_hex, .ok ())
  | .error _ => (cur, .ok ())

/-- Line 83: the fixed interpolation step count. -/
def steps : ℕ := 20

/-- Lines 86-89: one interpolated channel,
`int(r0 + (r1 - r0) * t)` with `t = i / steps` evaluated in binary64. -/
def lerpChan (c0 c1 : ℤ) (i : ℕ) : ℤ :=
  (faddZ c0 (fmulZ (c1 - c0) (fdivZ (i : ℤ) steps))).toIntTrunc

/-- The three channels of interpolation step `i`. -/
def lerp3 (a b : ℤ × ℤ × ℤ) (i : ℕ) : ℤ × ℤ × ℤ :=
  (lerpChan a.1 b.1 i, lerpChan a.2.1 b.2.1 i, lerpChan a.2.2 b.2.2 i)

/-- Line 84: `delay = duration_ms / steps / 1000.0`, in seconds (binary64). -/
def stepDelaySeconds (duration_ms : ℕ) : FP := fdivFP (fdivZ (duration_ms : ℤ) steps) 1000

/-- Spec-side channel formula, for comparison with `lerpChan`: truncation
toward zero of the exact value `c0 + (c1 - c0) * (i / 20)` (that value has
denominator 20, so this is `tdiv` of the scaled numerator). -/
def specLerpChan (c0 c1 : ℤ) (i : ℕ) : ℤ := Int.tdiv (c0 * 20 + (c1 - c0) * (i : ℤ)) 20

/-- Lines 78-95, `set_color(col_hex, duration_ms)`.  State is the global
`_current_hardware_color` (`cur`); the result is the new state together with
the list of colors passed to `write_color`, in order (writes are modelled as
succeeding; `write_color` never raises either way).  The guard mirrors
Python truthiness: `duration_ms and _current_hardware_color and
_current_hardware_color.lower() != col_hex.lower()`.  The inner `none`
branch is the case where `hex_to_rgb` raises before any write. -/
def set_color (col_hex : String) (duration_ms : Option ℕ) (cur : Option String) :
    Option String × List String :=
  match duration_ms, cur with
  | some d, some curc =>
    if d ≠ 0 ∧ curc ≠ "" ∧ strLower curc ≠ strLower col_hex then
      match hex_to_rgb curc, hex_to_rgb col_hex with
      | some c0, some c1 =>
        let ws := (List.range steps).map fun j => rgb_to_hex (lerp3 c0 c1 (j + 1))
        (ws.foldl (fun _ w => some w) cur, ws)
      | _, _ => (cur, [])
    else (some col_hex, [col_hex])
  | _, _ => (some col_hex, [col_hex])

/-! ## Animation threads (lines 98-167) -/

/-- Configuration of a `ModeThread` subclass: its color cycle and tick delay. -/
structure ModeThreadCfg where
  colors : List String
  delay_ms : ℕ
  deriving DecidableEq

/-- Lines 149-157: `NewYearsThread`, red/green, 500 ms. -/
def newYearsThread : ModeThreadCfg := ⟨["ff0000", "00ff00"], 500⟩

/-- Lines 159-167: `PoliceThread`, red/blue, 100 ms. -/
def policeThread : ModeThreadCfg := ⟨["ff0000", "0000ff"], 100⟩

/-- The `ModeThread.run` loop over a list of per-tick write outcomes: each
tick writes `colors[color_index]` through `write_color` and advances
`color_index = (color_index + 1) % len(colors)`.  An out-of-range index
(Python `IndexError`) is caught by the `try` around the loop and ends the
thread.  Returns final index, final hardware state, and attempted writes. -/
def modeThreadRun (cols : List String) : List WriteOutcome → ℕ → Option String →
    ℕ × Option String × List String
  | [], idx, hw => (idx, hw, [])
  | oc :: rest, idx, hw =>
    match cols[idx]? with
    | none => (idx, hw, [])
    | some c =>
      let hw1 := (write_color oc c hw).1
      let r := modeThreadRun cols rest ((idx + 1) % cols.length) hw1
      (r.1, r.2.1, c :: r.2.2)

/-- Line 33: the rainbow tick delay. -/
def RAIN_DELAY_MS : ℕ := 10

/-! ### Qt HSV-to-RGB conversion, used by `RainbowThread` (line 136)

`QColor.fromHsv(h, 255, 255)` stores hue `h * 100` and 16-bit saturation and
value `255 * 0x101 = 65535`; `toRgb` runs the standard sector algorithm in
`qreal` (binary64) and stores `qRound(x * 65535)` per channel; `name()`
divides each 16-bit channel by 257 with rounding and formats `#rrggbb`.
Modelled from Qt's sources since Qt is external to this repository. -/

/-- Qt `qRound` for the nonnegative qreals produced here: `int(d + 0.5)`
(and `int(d - 0.5)` for negative `d`). -/
def qRoundFP (d : FP) : ℤ :=
  if 0 ≤ d.man then (faddFP d ⟨1, -1⟩).toIntTrunc else (faddFP d ⟨-1, -1⟩).toIntTrunc

/-- Qt `qt_div_257(x) = qt_div_257_floor(x + 128)` with
`qt_div_257_floor(x) = (x - (x >> 8)) >> 8`: rounding division by 257. -/
def qt_div_257 (x : ℕ) : ℕ := (x + 128 - (x + 128) / 256) / 256

/-- One 8-bit output channel from a `qreal` in `[0,1]`:
`qt_div_257 (qRound (x * 65535))`. -/
def qchan8 (x : FP) : ℕ := qt_div_257 (qRoundFP (fmulZ 65535 x)).toNat

/-- The chromatic branch of Qt's HSV→RGB for hue `h ∈ [0, 360)` at full
saturation and value: `h' = (h * 100) / 6000.0`, `i = int(h')`,
`f = h' - i`, `p = v * (1 - s)`, `q = v * (1 - s * f)`,
`t = v * (1 - s * (1 - f))`, dispatched on the sector `i`. -/
def qtHsvFullRgb8 (h : ℕ) : ℕ × ℕ × ℕ :=
  let hq := fdivZ ((h : ℤ) * 100) 6000
  let s := fdivZ 65535 65535
  let v := fdivZ 65535 65535
  let i := hq.toIntTrunc
  let f := faddFP hq ⟨-i, 0⟩
  let p := fmulFP v (faddZ 1 ⟨-s.man, s.exp⟩)
  if i % 2 = 1 then
    let q := fmulFP v (faddZ 1 (let sf := fmulFP s f; ⟨-sf.man, sf.exp⟩))
    if i = 1 then (qchan8 q, qchan8 v, qchan8 p)
    else if i = 3 then (qchan8 p, qchan8 q, qchan8 v)
    else (qchan8 v, qchan8 p, qchan8 q)
  else
    let t := fmulFP v (faddZ 1
      (let st := fmulFP s (faddZ 1 ⟨-f.man, f.exp⟩); ⟨-st.man, st.exp⟩))
    if i = 0 then (qchan8 v, qchan8 t, qchan8 p)
    else if i = 2 then (qchan8 p, qchan8 v, qchan8 t)
    else (qchan8 t, qchan8 p, qchan8 v)

/-- Python `s[1:]` on a string. -/
def pySlice1 (s : String) : String := ⟨s.data.drop 1⟩

/-- Line 136: `QColor.fromHsv(hue % 360, 255, 255).name()[1:]` — the
`#rrggbb` name of the HSV color, with the `#` stripped. -/
def rainbowColorName (h : ℕ) : String :=
  pySlice1 ⟨'#' :: (fmt02x ((qtHsvFullRgb8 h).1 : ℤ) ++ fmt02x ((qtHsvFullRgb8 h).2.1 : ℤ)
    ++ fmt02x ((qtHsvFullRgb8 h).2.2 : ℤ))⟩

/-- Lines 124-141: `RainbowThread` state is its unbounded `hue` counter. -/
structure RainbowSt where
  hue : ℕ
  deriving DecidableEq

/-- One rainbow tick: write the color for `hue % 360`, then `hue += 1`. -/
def rainbowTick (st : RainbowSt) : RainbowSt × String :=
  (⟨st.hue + 1⟩, rainbowColorName (st.hue % 360))

/-- Run `n` rainbow ticks; returns the final state and the written colors. -/
def rainbowRun : ℕ → RainbowSt → RainbowSt × List String
  | 0, st => (st, [])
  | n + 1, st =>
    let p := rainbowTick st
    let r := rainbowRun n p.1
    (r.1, p.2 :: r.2)

/-! ## The controller (lines 170-362) -/

/-- Line 32: the static transition duration. -/
def STATIC_DURATION_MS : ℕ := 100

/-- Which animation thread class a live thread instance is. -/
inductive AnimMode
  | rainbow
  | newYears
  | police
  deriving DecidableEq

/-- The controller's `active_thread` slot content. -/
structure ThreadHandle where
  mode : AnimMode
  deriving DecidableEq

/-- Controller state: the `active_thread` slot, the global
`_current_hardware_color`, and the two persisted settings. -/
structure Controller where
  active_thread : Option ThreadHandle
  hw : Option String
  lastStaticColor : String
  lastMode : String
  deriving DecidableEq

/-- Observable events of a controller operation, in program order.
`stopJoin m` is a completed `thread.stop()` (signal plus join); `startT m`
is a `thread.start()`; `write c` is a hardware write. -/
inductive Event
  | stopJoin (m : AnimMode)
  | startT (m : AnimMode)
  | write (c : String)
  deriving DecidableEq

/-- Lines 353-356, `stop_active_thread`: if a thread is active, stop and
join it (synchronously) and clear the slot. -/
def stop_active_thread (st : Controller) : Controller × List Event :=
  match st.active_thread with
  | some t => ({ st with active_thread := none }, [.stopJoin t.mode])
  | none => (st, [])

/-- Lines 348-351, `start_thread`: stop any active thread, store the new
instance in the slot and start it. -/
def start_thread (st : Controller) (m : AnimMode) : Controller × List Event :=
  let p := stop_active_thread st
  ({ p.1 with active_thread := some ⟨m⟩ }, p.2 ++ [.startT m])

/-- Lines 291-303, `activate_mode`: stop the active thread, then dispatch on
the mode name; an unrecognized name falls through the `elif` chain and does
nothing further. -/
def activate_mode (st : Controller) (mode : String) (is_startup : Bool) :
    Controller × List Event :=
  let p := stop_active_thread st
  if mode = "Static Color" then
    let duration := if is_startup then none else some STATIC_DURATION_MS
    let r := set_color p.1.lastStaticColor duration p.1.hw
    ({ p.1 with hw := r.1 }, p.2 ++ r.2.map .write)
  else if mode = "Rainbow" then
    let q := start_thread p.1 .rainbow
    (q.1, p.2 ++ q.2)
  else if mode = "New Year's" then
    let q := start_thread p.1 .newYears
    (q.1, p.2 ++ q.2)
  else if mode = "Police" then
    let q := start_thread p.1 .police
    (q.1, p.2 ++ q.2)
  else (p.1, p.2)

/-- Lines 314-331, `apply_static_color`: stop any running animation, run the
transition, persist the color and switch the stored mode to Static Color. -/
def apply_static_color (st : Controller) (color_hex : String) : Controller × List Event :=
  let p := stop_active_thread st
  let r := set_color color_hex (some STATIC_DURATION_MS) p.1.hw
  ({ p.1 with hw := r.1, lastStaticColor := color_hex, lastMode := "Static Color" },
    p.2 ++ r.2.map .write)

/-- Lines 358-362, `exit_app`: stop the active thread (tray hiding and the
Qt quit are external UI effects). -/
def exit_app (st : Controller) : Controller × List Event := stop_active_thread st

/-! ## Predicates used by the claims -/

/-- A channel lies (weakly) between the corresponding endpoints. -/
def chanBetween (x a b : ℤ) : Prop := min a b ≤ x ∧ x ≤ max a b

/-- A color lies componentwise between two colors. -/
def colorBetween (x a b : ℤ × ℤ × ℤ) : Prop :=
  chanBetween x.1 a.1 b.1 ∧ chanBetween x.2.1 a.2.1 b.2.1 ∧ chanBetween x.2.2 a.2.2 b.2.2

/-- A color lies strictly between two colors: componentwise between and
distinct from both endpoints. -/
def colorStrictlyBetween (x a b : ℤ × ℤ × ℤ) : Prop :=
  colorBetween x a b ∧ x ≠ a ∧ x ≠ b

instance (x a b : ℤ) : Decidable (chanBetween x a b) := by
  unfold chanBetween; infer_instance

instance (x a b : ℤ × ℤ × ℤ) : Decidable (colorBetween x a b) := by
  unfold colorBetween; infer_instance

instance (x a b : ℤ × ℤ × ℤ) : Decidable (colorStrictlyBetween x a b) := by
  unfold colorStrictlyBetween; infer_instance

/-- Every `startT` in an event trace is preceded by a `stopJoin`, provided a
thread was live when the operation began.  This is the no-two-live-writers
discipline: a new animation starts only after the previous one is joined. -/
def startsAfterStop (prev : Option ThreadHandle) (evs : List Event) : Prop :=
  ∀ i m, evs[i]? = some (Event.startT m) →
    prev = none ∨ ∃ (j : ℕ) (t : AnimMode), j < i ∧ evs[j]? = some (Event.stopJoin t)

/-! ### Round-trip lemmas for the hex digit maps -/

lemma char_ofNat_toNat_small : ∀ n : Fin 256, (Char.ofNat n).toNat = n := by decide

lemma char_eq_of_toNat_eq {c d : Char} (h : c.toNat = d.toNat) : c = d := by
  have hc := Char.ofNat_toNat c
  have hd := Char.ofNat_toNat d
  rw [← hc, ← hd, h]

lemma hexDigitVal_roundtrip {c : Char} (h : isLowerHexDigit c) :
    ∃ v, hexDigitVal c = some v ∧ v < 16 ∧ hexChar v = c := by
  have hle : c.toNat < 256 := by
    rcases h with ⟨h1, h2⟩ | ⟨h1, h2⟩ <;>
      [exact lt_of_le_of_lt h2 (by decide); exact lt_of_le_of_lt h2 (by decide)]
  rcases h with ⟨h1, h2⟩ | ⟨h1, h2⟩
  · have h1n : 48 ≤ c.toNat := h1
    have h2n : c.toNat ≤ 57 := h2
    refine ⟨c.toNat - 48, ?_, by omega, ?_⟩
    · simp only [hexDigitVal, if_pos (And.intro h1 h2)]
    · have hv : c.toNat - 48 < 10 := by omega
      simp only [hexChar, if_pos hv]
      apply char_eq_of_toNat_eq
      have : 48 + (c.toNat - 48) = c.toNat := by omega
      rw [this]
      exact char_ofNat_toNat_small ⟨c.toNat, hle⟩
  · have h1n : 97 ≤ c.toNat := h1
    have h2n : c.toNat ≤ 102 := h2
    have hno : ¬ ('0' ≤ c ∧ c ≤ '9') := by
      rintro ⟨_, hb⟩
      have : c.toNat ≤ 57 := hb
      omega
    refine ⟨c.toNat - 87, ?_, by omega, ?_⟩
    · simp only [hexDigitVal, if_neg hno, if_pos (And.intro h1 h2)]
    · have hv : ¬ (c.toNat - 87 < 10) := by omega
      simp only [hexChar, if_neg hv]
      apply char_eq_of_toNat_eq
      have : 87 + (c.toNat - 87) = c.toNat := by omega
      rw [this]
      exact char_ofNat_toNat_small ⟨c.toNat, hle⟩

lemma parseHex_pair {c1 c2 : Char} {v1 v2 : ℕ}
    (h1 : hexDigitVal c1 = some v1) (h2 : hexDigitVal c2 = some v2) :
    parseHex [c1, c2] = some (16 * v1 + v2) := by
  simp [parseHex, List.foldl, h1, h2]

lemma hexDigitsAux_zero : ∀ f, hexDigitsAux f 0 = [] := by
  intro f; cases f <;> simp [hexDigitsAux]

lemma hexDigits_small {v : ℕ} (h0 : 0 < v) (h16 : v < 16) :
    hexDigits v = [hexChar v] := by
  unfold hexDigits
  obtain ⟨f, hf⟩ : ∃ f, v = f + 1 := ⟨v - 1, by omega⟩
  subst hf
  have hd : (f + 1) / 16 = 0 := by omega
  have hm : (f + 1) % 16 = f + 1 := by omega
  simp [hexDigitsAux, hd, hm, hexDigitsAux_zero]

lemma hexDigits_two {v : ℕ} (h16 : 16 ≤ v) (h256 : v < 256) :
    hexDigits v = [hexChar (v / 16), hexChar (v % 16)] := by
  unfold hexDigits
  obtain ⟨f, hf⟩ : ∃ f, v = f + 1 := ⟨v - 1, by omega⟩
  have hne : v ≠ 0 := by omega
  have hd1 : 0 < v / 16 := by omega
  have hd2 : v / 16 < 16 := by omega
  obtain ⟨g, hg⟩ : ∃ g, v / 16 = g + 1 := ⟨v / 16 - 1, by omega⟩
  have hfuel : v / 16 ≤ f := by omega
  have step1 : hexDigitsAux v v = hexDigitsAux f (v / 16) ++ [hexChar (v % 16)] := by
    conv_lhs => rw [hf]
    simp [hexDigitsAux, hf.symm, hne]
  have hg16 : (g + 1) / 16 = 0 := by omega
  have hgm : (g + 1) % 16 = g + 1 := by omega
  have step2 : hexDigitsAux f (v / 16) = [hexChar (v / 16)] := by
    obtain ⟨f2, hf2⟩ : ∃ f2, f = f2 + 1 := ⟨f - 1, by omega⟩
    rw [hg, hf2]
    simp [hexDigitsAux, hg16, hgm, hexDigitsAux_zero]
  rw [step1, step2]
  rfl

lemma fmt02x_lt256 {v : ℕ} (h : v < 256) :
    fmt02x (v : ℤ) = [hexChar (v / 16), hexChar (v % 16)] := by
  have hnn : ¬ ((v : ℤ) < 0) := by
    push_neg; exact Int.ofNat_nonneg v
  have habs : (v : ℤ).natAbs = v := Int.natAbs_ofNat v
  by_cases h0 : v = 0
  · subst h0; rfl
  · by_cases h16 : v < 16
    · have : ¬ ((v : ℤ) = 0) := by exact_mod_cast h0
      have hv16 : (v : ℤ) < 16 := by exact_mod_cast h16
      have hd : v / 16 = 0 := by omega
      have hm : v % 16 = v := by omega
      simp only [fmt02x, if_neg hnn, if_neg this, if_pos hv16, habs]
      rw [hexDigits_small (by omega) h16, hd, hm]
      rfl
    · have hne : ¬ ((v : ℤ) = 0) := by exact_mod_cast h0
      have hv16 : ¬ ((v : ℤ) < 16) := by
        push_neg; exact_mod_cast Nat.le_of_not_lt h16
      simp only [fmt02x, if_neg hnn, if_neg hne, if_neg hv16, habs]
      exact hexDigits_two (by omega) h

/-- Round-trip at the level of one two-digit field. -/
lemma fmt02x_parseHex {c1 c2 : Char} {v : ℕ}
    (hc1 : isLowerHexDigit c1) (hc2 : isLowerHexDigit c2)
    (hp : parseHex [c1, c2] = some v) :
    fmt02x (v : ℤ) = [c1, c2] := by
  obtain ⟨v1, he1, hlt1, hr1⟩ := hexDigitVal_roundtrip hc1
  obtain ⟨v2, he2, hlt2, hr2⟩ := hexDigitVal_roundtrip hc2
  have hp2 := parseHex_pair he1 he2
  rw [hp] at hp2
  have hv : v = 16 * v1 + v2 := by
    have := Option.some.inj hp2; omega
  subst hv
  have h256 : 16 * v1 + v2 < 256 := by omega
  rw [fmt02x_lt256 h256]
  have hd : (16 * v1 + v2) / 16 = v1 := by omega
  have hm : (16 * v1 + v2) % 16 = v2 := by omega
  rw [hd, hm, hr1, hr2]

/-! ### Base-2 logarithm and rounding division -/

lemma log2fuel_spec : ∀ f n, 1 ≤ n → n ≤ f →
    2 ^ log2fuel f n ≤ n ∧ n < 2 ^ (log2fuel f n + 1) := by
  intro f
  induction f with
  | zero => intro n h1 h2; omega
  | succ f ih =>
    intro n h1 h2
    by_cases hn : n ≤ 1
    · have : n = 1 := by omega
      subst this
      simp [log2fuel]
    · have h2n : 2 ≤ n := by omega
      have hrec := ih (n / 2) (by omega) (by omega)
      have hstep : log2fuel (f + 1) n = log2fuel f (n / 2) + 1 := by
        simp [log2fuel, hn]
      rw [hstep]
      obtain ⟨hlo, hhi⟩ := hrec
      constructor
      · have : 2 ^ (log2fuel f (n / 2) + 1) = 2 * 2 ^ log2fuel f (n / 2) := by ring
        rw [this]; omega
      · have : 2 ^ (log2fuel f (n / 2) + 1 + 1) = 2 * 2 ^ (log2fuel f (n / 2) + 1) := by ring
        rw [this]; omega

lemma nlog2_spec {n : ℕ} (h : 1 ≤ n) : 2 ^ nlog2 n ≤ n ∧ n < 2 ^ (nlog2 n + 1) :=
  log2fuel_spec n n h le_rfl

lemma rne_abs {a b : ℕ} (hb : 0 < b) : |(rne a b : ℚ) - (a : ℚ) / b| ≤ 1 / 2 := by
  have hbq : (0 : ℚ) < (b : ℚ) := by exact_mod_cast hb
  have hmod := Nat.div_add_mod a b
  set q := a / b with hq
  set r := a % b with hr
  have hrb : r < b := Nat.mod_lt a hb
  have hab : (a : ℚ) / b = (q : ℚ) + (r : ℚ) / b := by
    field_simp
    push_cast [← hmod]
    ring
  have hr0 : (0 : ℚ) ≤ (r : ℚ) / b := by positivity
  unfold rne
  by_cases h1 : 2 * r < b
  · have hhalf : (r : ℚ) / b ≤ 1 / 2 := by
      rw [div_le_div_iff hbq (by norm_num)]
      have : (2 : ℚ) * r ≤ b := by exact_mod_cast Nat.le_of_lt h1
      linarith
    simp only [if_pos h1, ← hq, ← hr]
    rw [hab, abs_le]
    constructor <;> linarith
  · have h1q : (b : ℚ) ≤ 2 * r := by
      have : b ≤ 2 * r := by omega
      exact_mod_cast this
    have hhalf : 1 - (r : ℚ) / b ≤ 1 / 2 := by
      have hrb2 : 1 / 2 ≤ (r : ℚ) / b := by
        rw [div_le_div_iff (by norm_num) hbq]
        linarith
      linarith
    have habs : ∀ x : ℕ, x = q + 1 → |(x : ℚ) - (a : ℚ) / b| ≤ 1 / 2 := by
      intro x hx
      subst hx
      rw [hab, abs_le]
      push_cast
      have hub : (r : ℚ) / b ≤ 1 := by
        rw [div_le_one hbq]
        exact_mod_cast Nat.le_of_lt hrb
      constructor <;> linarith
    by_cases h2 : b < 2 * r
    · simp only [if_neg h1, if_pos h2, ← hq, ← hr]
      exact habs _ rfl
    · by_cases h3 : q % 2 = 0
      · have htie : 2 * r = b := by omega
        have hrq : (r : ℚ) / b = 1 / 2 := by
          rw [div_eq_div_iff (ne_of_gt hbq) (by norm_num)]
          have : (2 : ℚ) * r = b := by exact_mod_cast htie
          linarith
        simp only [if_neg h1, if_neg h2, if_pos h3, ← hq, ← hr]
        rw [hab, hrq, abs_le]
        constructor <;> linarith
      · simp only [if_neg h1, if_neg h2, if_neg h3, ← hq, ← hr]
        exact habs _ rfl

lemma rne_dvd {a b : ℕ} (hb : 0 < b) (h : b ∣ a) : rne a b = a / b := by
  have hr : a % b = 0 := Nat.eq_zero_of_dvd_of_lt h |> fun _ => Nat.mod_eq_zero_of_dvd h
  unfold rne
  simp [hr, hb]

/-- The two-power `(2 : ℚ) ^ L` written with natural exponents on both sides. -/
lemma zpow_toNat_split (L : ℤ) :
    (2 : ℚ) ^ L = (2 : ℚ) ^ L.toNat / (2 : ℚ) ^ (-L).toNat := by
  rcases le_or_lt 0 L with h | h
  · have h1 : ((L.toNat : ℕ) : ℤ) = L := Int.toNat_of_nonneg h
    have h2 : (-L).toNat = 0 := by omega
    rw [h2, pow_zero, div_one, ← zpow_natCast (2 : ℚ) L.toNat, h1]
  · have h1 : L.toNat = 0 := by omega
    have h2 : ((-L).toNat : ℤ) = -L := Int.toNat_of_nonneg (by omega)
    rw [h1]
    simp only [pow_zero]
    rw [eq_div_iff (by positivity), ← zpow_natCast (2 : ℚ) (-L).toNat, h2, ← zpow_add₀ (by norm_num : (2:ℚ) ≠ 0)]
    simp

lemma qexp_spec {n d : ℕ} (hn : 1 ≤ n) (hd : 1 ≤ d) :
    (2 : ℚ) ^ qexp n d ≤ (n : ℚ) / d ∧ (n : ℚ) / d < (2 : ℚ) ^ (qexp n d + 1) := by
  obtain ⟨han, han2⟩ := nlog2_spec hn
  obtain ⟨hbd, hbd2⟩ := nlog2_spec hd
  set a := nlog2 n
  set b := nlog2 d
  set L : ℤ := (a : ℤ) - (b : ℤ) with hL
  have hdq : (0 : ℚ) < (d : ℚ) := by exact_mod_cast hd
  have hq2 : (0 : ℚ) < (2 : ℚ) ^ (-L).toNat := by positivity
  have hq2b : (0 : ℚ) < (2 : ℚ) ^ L.toNat := by positivity
  have hcond : (d * 2 ^ L.toNat ≤ n * 2 ^ (-L).toNat) ↔ (2 : ℚ) ^ L ≤ (n : ℚ) / d := by
    rw [zpow_toNat_split, div_le_div_iff hq2 hdq]
    constructor
    · intro h
      have : ((d * 2 ^ L.toNat : ℕ) : ℚ) ≤ ((n * 2 ^ (-L).toNat : ℕ) : ℚ) := by exact_mod_cast h
      push_cast at this
      linarith
    · intro h
      have : ((d * 2 ^ L.toNat : ℕ) : ℚ) ≤ ((n * 2 ^ (-L).toNat : ℕ) : ℚ) := by push_cast; linarith
      exact_mod_cast this
  have hupper : (n : ℚ) / d < (2 : ℚ) ^ (L + 1) := by
    have h1 : (n : ℚ) < 2 ^ (a + 1) := by exact_mod_cast han2
    have h2 : (2 : ℚ) ^ b ≤ (d : ℚ) := by exact_mod_cast hbd
    have h2pos : (0 : ℚ) < (2 : ℚ) ^ b := by positivity
    have hpow : (2 : ℚ) ^ (L + 1) = (2 : ℚ) ^ (a + 1) / 2 ^ b := by
      rw [hL, ← zpow_natCast (2 : ℚ) (a + 1), ← zpow_natCast (2 : ℚ) b,
        ← zpow_sub₀ (by norm_num : (2:ℚ) ≠ 0)]
      congr 1
      push_cast
      ring
    rw [hpow, div_lt_div_iff hdq h2pos]
    nlinarith [pow_pos (by norm_num : (0:ℚ) < 2) (a + 1)]
  have hlower : (2 : ℚ) ^ (L - 1) ≤ (n : ℚ) / d := by
    have h1 : (2 : ℚ) ^ a ≤ (n : ℚ) := by exact_mod_cast han
    have h2 : (d : ℚ) < 2 ^ (b + 1) := by exact_mod_cast hbd2
    have h2pos : (0 : ℚ) < (2 : ℚ) ^ (b + 1) := by positivity
    have hpow : (2 : ℚ) ^ (L - 1) = (2 : ℚ) ^ a / 2 ^ (b + 1) := by
      rw [hL, ← zpow_natCast (2 : ℚ) a, ← zpow_natCast (2 : ℚ) (b + 1),
        ← zpow_sub₀ (by norm_num : (2:ℚ) ≠ 0)]
      congr 1
      push_cast
      ring
    rw [hpow, div_le_div_iff h2pos hdq]
    nlinarith [pow_pos (by norm_num : (0:ℚ) < 2) a]
  unfold qexp
  by_cases hc : d * 2 ^ L.toNat ≤ n * 2 ^ (-L).toNat
  · rw [if_pos hc]
    exact ⟨hcond.mp hc, hupper⟩
  · rw [if_neg hc]
    constructor
    · have : L - 1 + 1 = L := by ring
      exact hlower
    · have hnc : ¬ ((2 : ℚ) ^ L ≤ (n : ℚ) / d) := fun h => hc (hcond.mpr h)
      push_neg at hnc
      have : L - 1 + 1 = L := by ring
      rw [this]
      exact hnc

/-! ### Rounding error of the binary64 operations -/

lemma zpow2_pos (z : ℤ) : (0 : ℚ) < (2 : ℚ) ^ z := zpow_pos (by norm_num) z

lemma abs_sub_scale (x y c : ℚ) (hc : 0 < c) : |x * c - y * c| = |x - y| * c := by
  rw [← sub_mul, abs_mul, abs_of_pos hc]

lemma nlog2_ge_53 {M : ℕ} (h : 2 ^ 53 ≤ M) : 53 ≤ nlog2 M := by
  by_contra hlt
  push_neg at hlt
  have h1 : M < 2 ^ (nlog2 M + 1) := (nlog2_spec (by omega)).2
  have h2 : (2 : ℕ) ^ (nlog2 M + 1) ≤ 2 ^ 53 := Nat.pow_le_pow_right (by norm_num) (by omega)
  omega

lemma round53n_err (M : ℕ) (e : ℤ) :
    |((round53n M e).1 : ℚ) * (2 : ℚ) ^ (round53n M e).2 - (M : ℚ) * (2 : ℚ) ^ e|
      ≤ (M : ℚ) * (2 : ℚ) ^ e / 2 ^ 53 := by
  unfold round53n
  by_cases hM : M < 2 ^ 53
  · rw [if_pos hM]
    simp only [sub_self, abs_zero]
    positivity
  · rw [if_neg hM]
    push_neg at hM
    have hM1 : 1 ≤ M := by
      have : (1 : ℕ) ≤ 2 ^ 53 := Nat.one_le_two_pow
      omega
    set s := nlog2 M - 52 with hs
    have hlog : 53 ≤ nlog2 M := nlog2_ge_53 hM
    have hs52 : s + 52 = nlog2 M := by omega
    have hpows : (0 : ℕ) < 2 ^ s := Nat.pos_pow_of_pos s (by norm_num)
    have herr := rne_abs (a := M) (b := 2 ^ s) hpows
    have hscale : (0 : ℚ) < (2 : ℚ) ^ (e + (s : ℤ)) := zpow2_pos _
    have hkey : |(rne M (2 ^ s) : ℚ) * (2 : ℚ) ^ (e + (s : ℤ)) - (M : ℚ) * (2 : ℚ) ^ e|
        ≤ (2 : ℚ) ^ (e + (s : ℤ)) / 2 := by
      have hsplit : (M : ℚ) * (2 : ℚ) ^ e
          = ((M : ℚ) / ((2 ^ s : ℕ) : ℚ)) * (2 : ℚ) ^ (e + (s : ℤ)) := by
        push_cast
        rw [zpow_add₀ (by norm_num : (2:ℚ) ≠ 0)]
        rw [zpow_natCast]
        field_simp
        ring
      rw [hsplit, abs_sub_scale _ _ _ hscale]
      calc |(rne M (2 ^ s) : ℚ) - (M : ℚ) / ((2 ^ s : ℕ) : ℚ)| * (2 : ℚ) ^ (e + (s : ℤ))
          ≤ (1 / 2) * (2 : ℚ) ^ (e + (s : ℤ)) := by
            apply mul_le_mul_of_nonneg_right herr hscale.le
        _ = (2 : ℚ) ^ (e + (s : ℤ)) / 2 := by ring
    have hbound : (2 : ℚ) ^ (e + (s : ℤ)) / 2 ≤ (M : ℚ) * (2 : ℚ) ^ e / 2 ^ 53 := by
      have hMlow : (2 : ℚ) ^ (s + 52 : ℕ) ≤ (M : ℚ) := by
        rw [hs52]
        exact_mod_cast (nlog2_spec hM1).1
      have htwo : (2 : ℚ) ≠ 0 := by norm_num
      have hid : (2 : ℚ) ^ (e + (s : ℤ)) / 2
          = ((2 : ℚ) ^ (s + 52 : ℕ) * (2 : ℚ) ^ e) / 2 ^ 53 := by
        have h52 : ((2 : ℚ) ^ (s + 52 : ℕ) : ℚ) = (2 : ℚ) ^ ((s : ℤ) + 52) := by
          norm_cast
        have h53 : ((2 : ℚ) ^ (53 : ℕ) : ℚ) = (2 : ℚ) ^ (53 : ℤ) := by
          rw [← zpow_natCast (2 : ℚ) 53]
          norm_num
        have h1 : ((2 : ℚ) ^ ((s : ℤ) + 52) * (2 : ℚ) ^ e) / (2 : ℚ) ^ (53 : ℤ)
            = (2 : ℚ) ^ ((s : ℤ) + 52 + e - 53) := by
          rw [← zpow_add₀ htwo, ← zpow_sub₀ htwo]
        have h2 : (2 : ℚ) ^ (e + (s : ℤ) - 1) = (2 : ℚ) ^ (e + (s : ℤ)) / 2 := by
          rw [zpow_sub₀ htwo]
          norm_num
        rw [h52, h53, h1, ← h2]
        congr 1
        ring
      rw [hid]
      apply div_le_div_of_nonneg_right ?_ (by positivity)
      · exact mul_le_mul_of_nonneg_right hMlow (zpow2_pos e).le
    calc |(rne M (2 ^ s) : ℚ) * (2 : ℚ) ^ (e + (s : ℤ)) - (M : ℚ) * (2 : ℚ) ^ e|
        ≤ (2 : ℚ) ^ (e + (s : ℤ)) / 2 := hkey
      _ ≤ (M : ℚ) * (2 : ℚ) ^ e / 2 ^ 53 := hbound

lemma round53_val (M : ℤ) (e : ℤ) :
    (round53 M e).val = (if M < 0 then -(((round53n M.natAbs e).1 : ℚ)) else ((round53n M.natAbs e).1 : ℚ))
      * (2 : ℚ) ^ (round53n M.natAbs e).2 := by
  unfold round53 FP.val
  by_cases h : M < 0 <;> simp [h]

lemma round53_err (M : ℤ) (e : ℤ) :
    |(round53 M e).val - (M : ℚ) * (2 : ℚ) ^ e| ≤ |(M : ℚ)| * (2 : ℚ) ^ e / 2 ^ 53 := by
  have habs : ((M.natAbs : ℕ) : ℚ) = |(M : ℚ)| := by
    rw [Int.cast_natAbs (R := ℚ), Int.cast_abs]
  have hprep := round53n_err M.natAbs e
  rw [habs] at hprep
  rw [round53_val]
  by_cases h : M < 0
  · rw [if_pos h]
    have hre : -(((round53n M.natAbs e).1 : ℚ)) * (2 : ℚ) ^ (round53n M.natAbs e).2
          - (M : ℚ) * (2 : ℚ) ^ e
        = -((((round53n M.natAbs e).1 : ℚ)) * (2 : ℚ) ^ (round53n M.natAbs e).2
            - |(M : ℚ)| * (2 : ℚ) ^ e) := by
      rw [abs_of_neg (by exact_mod_cast h : (M : ℚ) < 0)]
      ring
    rw [hre, abs_neg]
    exact hprep
  · rw [if_neg h]
    push_neg at h
    rw [abs_of_nonneg (by exact_mod_cast h : (0:ℚ) ≤ (M : ℚ))] at hprep ⊢
    exact hprep

lemma divRnd_err {n d : ℕ} (hn : 1 ≤ n) (hd : 1 ≤ d) :
    |((divRnd n d).1 : ℚ) * (2 : ℚ) ^ (divRnd n d).2 - (n : ℚ) / d|
      ≤ ((n : ℚ) / d) / 2 ^ 53 := by
  obtain ⟨hlo, hhi⟩ := qexp_spec hn hd
  set e := qexp n d with he
  set k : ℤ := 52 - e with hk
  have hpos : (0 : ℚ) < (n : ℚ) / d := by
    have h1 : (0 : ℚ) < (n : ℚ) := by exact_mod_cast hn
    have h2 : (0 : ℚ) < (d : ℚ) := by exact_mod_cast hd
    positivity
  have hscale : (0 : ℚ) < (2 : ℚ) ^ (-k) := zpow2_pos _
  have hek : e - 52 = -k := by omega
  have hgoal : ∀ m : ℕ, |(m : ℚ) - ((n : ℚ) / d) * (2 : ℚ) ^ k| ≤ 1 / 2 →
      |(m : ℚ) * (2 : ℚ) ^ (e - 52) - (n : ℚ) / d| ≤ ((n : ℚ) / d) / 2 ^ 53 := by
    intro m hm
    have hsplit : (n : ℚ) / d = (((n : ℚ) / d) * (2 : ℚ) ^ k) * (2 : ℚ) ^ (-k) := by
      rw [mul_assoc, ← zpow_add₀ (by norm_num : (2:ℚ) ≠ 0)]
      simp
    rw [hek]
    conv_lhs => rw [hsplit]
    rw [abs_sub_scale _ _ _ hscale]
    have hstep : |(m : ℚ) - ((n : ℚ) / d) * (2 : ℚ) ^ k| * (2 : ℚ) ^ (-k)
        ≤ (1 / 2) * (2 : ℚ) ^ (-k) := mul_le_mul_of_nonneg_right hm hscale.le
    refine hstep.trans ?_
    have htwo : (2 : ℚ) ≠ 0 := by norm_num
    have h253 : (1 / 2 : ℚ) * (2 : ℚ) ^ (-k) = (2 : ℚ) ^ e / 2 ^ 53 := by
      have h53 : ((2 : ℚ) ^ (53 : ℕ) : ℚ) = (2 : ℚ) ^ (53 : ℤ) := by
        rw [← zpow_natCast (2 : ℚ) 53]
        norm_num
      have hl : (2 : ℚ) ^ (-k - 1) = (2 : ℚ) ^ (-k) / 2 := by
        rw [zpow_sub₀ htwo]
        norm_num
      have hr : (2 : ℚ) ^ (e - 53) = (2 : ℚ) ^ e / 2 ^ 53 := by
        rw [zpow_sub₀ htwo, h53]
      have hke : -k - 1 = e - 53 := by omega
      rw [← hr, ← hke, hl]
      ring
    rw [h253]
    apply div_le_div_of_nonneg_right hlo (by positivity)
  have hdiv1 : (divRnd n d).1
      = (if 0 ≤ k then rne (n * 2 ^ k.toNat) d else rne n (d * 2 ^ (-k).toNat)) := rfl
  have hdiv2 : (divRnd n d).2 = e - 52 := rfl
  rw [hdiv1, hdiv2]
  by_cases hknn : 0 ≤ k
  · rw [if_pos hknn]
    have hpow : (0 : ℕ) < 2 ^ k.toNat := Nat.pos_pow_of_pos _ (by norm_num)
    have herr := rne_abs (a := n * 2 ^ k.toNat) (b := d) hd
    apply hgoal
    have hval : ((n * 2 ^ k.toNat : ℕ) : ℚ) / d = ((n : ℚ) / d) * (2 : ℚ) ^ k := by
      push_cast
      rw [← zpow_natCast (2 : ℚ) k.toNat, Int.toNat_of_nonneg hknn]
      ring
    rw [← hval]
    exact herr
  · rw [if_neg hknn]
    push_neg at hknn
    have hpow : (0 : ℕ) < d * 2 ^ (-k).toNat :=
      Nat.mul_pos hd (Nat.pos_pow_of_pos _ (by norm_num))
    have herr := rne_abs (a := n) (b := d * 2 ^ (-k).toNat) hpow
    apply hgoal
    have hval : (n : ℚ) / ((d * 2 ^ (-k).toNat : ℕ) : ℚ) = ((n : ℚ) / d) * (2 : ℚ) ^ k := by
      have hs : (((-k).toNat : ℕ) : ℤ) = -k := Int.toNat_of_nonneg (by omega)
      have hzp : (2 : ℚ) ^ k = ((2 : ℚ) ^ ((-k).toNat : ℕ))⁻¹ := by
        rw [← zpow_natCast (2 : ℚ) (-k).toNat, hs, ← zpow_neg]
        congr 1
        ring
      have hdq : (d : ℚ) ≠ 0 := by
        have : (0 : ℚ) < (d : ℚ) := by exact_mod_cast hd
        exact ne_of_gt this
      have hpq : ((2 : ℚ) ^ ((-k).toNat : ℕ)) ≠ 0 := by positivity
      push_cast
      rw [hzp]
      field_simp
    rw [← hval]
    exact herr

/-! ### Error and exactness of the float operations -/

lemma natAbs_cast_abs (M : ℤ) : ((M.natAbs : ℕ) : ℚ) = |(M : ℚ)| := by
  rw [Int.cast_natAbs (R := ℚ), Int.cast_abs]

lemma fdivZ_val {a : ℤ} (b : ℕ) (ha : a ≠ 0) :
    (fdivZ a b).val =
      (if a < 0 then -(((divRnd a.natAbs b).1 : ℕ) : ℚ) else (((divRnd a.natAbs b).1 : ℕ) : ℚ))
        * (2 : ℚ) ^ (divRnd a.natAbs b).2 := by
  unfold fdivZ FP.val
  rw [if_neg ha]
  by_cases h : a < 0 <;> simp [h]

lemma fdivZ_err (a : ℤ) (b : ℕ) (hb : 1 ≤ b) :
    |(fdivZ a b).val - (a : ℚ) / b| ≤ |(a : ℚ) / b| / 2 ^ 53 := by
  by_cases ha : a = 0
  · subst ha
    simp [fdivZ, FP.val]
  · have hn : 1 ≤ a.natAbs := by omega
    have herr := divRnd_err hn hb
    rw [fdivZ_val b ha]
    by_cases h : a < 0
    · rw [if_pos h]
      have hflip : -(((divRnd a.natAbs b).1 : ℕ) : ℚ) * (2 : ℚ) ^ (divRnd a.natAbs b).2
            - (a : ℚ) / b
          = -((((divRnd a.natAbs b).1 : ℕ) : ℚ) * (2 : ℚ) ^ (divRnd a.natAbs b).2
            - ((a.natAbs : ℕ) : ℚ) / b) := by
        rw [natAbs_cast_abs, abs_of_neg (by exact_mod_cast h : (a : ℚ) < 0)]
        ring
      rw [hflip, abs_neg]
      have hb0 : (0 : ℚ) < (b : ℚ) := by exact_mod_cast hb
      have habsdiv : |(a : ℚ) / b| = ((a.natAbs : ℕ) : ℚ) / b := by
        rw [abs_div, natAbs_cast_abs, abs_of_pos hb0]
      rw [habsdiv]
      exact herr
    · rw [if_neg h]
      push_neg at h
      have hb0 : (0 : ℚ) < (b : ℚ) := by exact_mod_cast hb
      have haq : (0 : ℚ) ≤ (a : ℚ) := by exact_mod_cast h
      have habs : ((a.natAbs : ℕ) : ℚ) = (a : ℚ) := by
        rw [natAbs_cast_abs, abs_of_nonneg haq]
      have habsdiv : |(a : ℚ) / b| = (a : ℚ) / b := abs_of_nonneg (by positivity)
      rw [habsdiv]
      rw [habs] at herr
      exact herr

lemma fmulZ_err (d : ℤ) (t : FP) :
    |(fmulZ d t).val - (d : ℚ) * t.val| ≤ |(d : ℚ) * t.val| / 2 ^ 53 := by
  have h := round53_err (d * t.man) t.exp
  unfold fmulZ
  have h1 : ((d * t.man : ℤ) : ℚ) * (2 : ℚ) ^ t.exp = (d : ℚ) * t.val := by
    unfold FP.val
    push_cast
    ring
  have h2 : |((d * t.man : ℤ) : ℚ)| * (2 : ℚ) ^ t.exp / 2 ^ 53 = |(d : ℚ) * t.val| / 2 ^ 53 := by
    unfold FP.val
    rw [abs_mul, abs_mul]
    rw [abs_of_pos (zpow2_pos t.exp)]
    push_cast
    rw [abs_mul]
    ring
  rw [h1, h2] at h
  exact h

lemma faddZ_err (r : ℤ) (x : FP) :
    |(faddZ r x).val - ((r : ℚ) + x.val)| ≤ |(r : ℚ) + x.val| / 2 ^ 53 := by
  unfold faddZ
  by_cases h : 0 ≤ x.exp
  · rw [if_pos h]
    have hval : ((r + x.man * 2 ^ x.exp.toNat : ℤ) : ℚ) * (2 : ℚ) ^ (0 : ℤ)
        = (r : ℚ) + x.val := by
      unfold FP.val
      push_cast
      rw [← zpow_natCast (2 : ℚ) x.exp.toNat, Int.toNat_of_nonneg h]
      ring
    have herr := round53_err (r + x.man * 2 ^ x.exp.toNat) 0
    rw [hval] at herr
    refine herr.trans ?_
    rw [← hval]
    apply div_le_div_of_nonneg_right ?_ (by positivity)
    rw [abs_mul, abs_of_pos (zpow2_pos 0)]
  · rw [if_neg h]
    push_neg at h
    have hval : ((r * 2 ^ (-x.exp).toNat + x.man : ℤ) : ℚ) * (2 : ℚ) ^ x.exp
        = (r : ℚ) + x.val := by
      unfold FP.val
      push_cast
      rw [← zpow_natCast (2 : ℚ) (-x.exp).toNat, Int.toNat_of_nonneg (by omega : (0:ℤ) ≤ -x.exp)]
      rw [add_mul, mul_assoc, ← zpow_add₀ (by norm_num : (2:ℚ) ≠ 0)]
      simp
    have herr := round53_err (r * 2 ^ (-x.exp).toNat + x.man) x.exp
    rw [hval] at herr
    refine herr.trans ?_
    rw [← hval]
    apply div_le_div_of_nonneg_right ?_ (by positivity)
    rw [abs_mul, abs_of_pos (zpow2_pos x.exp)]

lemma fdivFP_val {x : FP} (b : ℕ) (hx : x.man ≠ 0) :
    (fdivFP x b).val =
      ((if x.man < 0 then -(((divRnd x.man.natAbs b).1 : ℕ) : ℚ)
        else (((divRnd x.man.natAbs b).1 : ℕ) : ℚ))
        * (2 : ℚ) ^ (divRnd x.man.natAbs b).2) * (2 : ℚ) ^ x.exp := by
  unfold fdivFP FP.val
  rw [if_neg hx]
  by_cases h : x.man < 0 <;>
    simp [h, zpow_add₀ (by norm_num : (2:ℚ) ≠ 0)] <;> ring

lemma fdivFP_err (x : FP) (b : ℕ) (hb : 1 ≤ b) :
    |(fdivFP x b).val - x.val / b| ≤ |x.val / b| / 2 ^ 53 := by
  by_cases hx : x.man = 0
  · have hv : x.val = 0 := by
      unfold FP.val
      rw [hx]
      simp
    simp [fdivFP, hx, hv, FP.val]
  · have hb0 : (0 : ℚ) < (b : ℚ) := by exact_mod_cast hb
    have hn : 1 ≤ x.man.natAbs := by omega
    have herr := divRnd_err hn hb
    have hsc : (0 : ℚ) < (2 : ℚ) ^ x.exp := zpow2_pos x.exp
    have habs : |x.val / b| = (((x.man.natAbs : ℕ) : ℚ) / b) * (2 : ℚ) ^ x.exp := by
      unfold FP.val
      rw [abs_div, abs_mul, abs_of_pos hsc, abs_of_pos hb0, natAbs_cast_abs]
      ring
    have hfin : |(((divRnd x.man.natAbs b).1 : ℕ) : ℚ) * (2 : ℚ) ^ (divRnd x.man.natAbs b).2
          - ((x.man.natAbs : ℕ) : ℚ) / b| * (2 : ℚ) ^ x.exp
        ≤ ((x.man.natAbs : ℕ) : ℚ) / b * (2 : ℚ) ^ x.exp / 2 ^ 53 :=
      calc |(((divRnd x.man.natAbs b).1 : ℕ) : ℚ) * (2 : ℚ) ^ (divRnd x.man.natAbs b).2
            - ((x.man.natAbs : ℕ) : ℚ) / b| * (2 : ℚ) ^ x.exp
          ≤ (((x.man.natAbs : ℕ) : ℚ) / b / 2 ^ 53) * (2 : ℚ) ^ x.exp :=
            mul_le_mul_of_nonneg_right herr hsc.le
        _ = ((x.man.natAbs : ℕ) : ℚ) / b * (2 : ℚ) ^ x.exp / 2 ^ 53 := by ring
    rw [fdivFP_val b hx, habs]
    by_cases h : x.man < 0
    · rw [if_pos h]
      have hxv : x.val / b = -((((x.man.natAbs : ℕ) : ℚ) / b) * (2 : ℚ) ^ x.exp) := by
        unfold FP.val
        rw [natAbs_cast_abs, abs_of_neg (by exact_mod_cast h : (x.man : ℚ) < 0)]
        ring
      rw [hxv]
      have hre : -(((divRnd x.man.natAbs b).1 : ℕ) : ℚ) * (2 : ℚ) ^ (divRnd x.man.natAbs b).2
              * (2 : ℚ) ^ x.exp
            - -((((x.man.natAbs : ℕ) : ℚ) / b) * (2 : ℚ) ^ x.exp)
          = -(((((divRnd x.man.natAbs b).1 : ℕ) : ℚ) * (2 : ℚ) ^ (divRnd x.man.natAbs b).2
            - ((x.man.natAbs : ℕ) : ℚ) / b) * (2 : ℚ) ^ x.exp) := by
        ring
      rw [hre, abs_neg, abs_mul, abs_of_pos hsc]
      exact hfin
    · rw [if_neg h]
      push_neg at h
      have hxv : x.val / b = (((x.man.natAbs : ℕ) : ℚ) / b) * (2 : ℚ) ^ x.exp := by
        unfold FP.val
        rw [natAbs_cast_abs, abs_of_nonneg (by exact_mod_cast h : (0:ℚ) ≤ (x.man : ℚ))]
        ring
      rw [hxv]
      have hre : (((divRnd x.man.natAbs b).1 : ℕ) : ℚ) * (2 : ℚ) ^ (divRnd x.man.natAbs b).2
              * (2 : ℚ) ^ x.exp
            - (((x.man.natAbs : ℕ) : ℚ) / b) * (2 : ℚ) ^ x.exp
          = ((((divRnd x.man.natAbs b).1 : ℕ) : ℚ) * (2 : ℚ) ^ (divRnd x.man.natAbs b).2
            - ((x.man.natAbs : ℕ) : ℚ) / b) * (2 : ℚ) ^ x.exp := by
        ring
      rw [hre, abs_mul, abs_of_pos hsc]
      exact hfin

/-! ### Exactness of rounding on representable values -/

lemma round53_small {M : ℤ} (e : ℤ) (h : M.natAbs < 2 ^ 53) : round53 M e = ⟨M, e⟩ := by
  unfold round53 round53n
  rw [if_pos h]
  by_cases h2 : M < 0
  · simp only [if_pos h2]
    congr 1
    omega
  · simp only [if_neg h2]
    congr 1
    omega

lemma round53n_dyadic {m : ℕ} (j : ℕ) (e : ℤ) (h : m < 2 ^ 53) :
    ((round53n (m * 2 ^ j) e).1 : ℚ) * (2 : ℚ) ^ (round53n (m * 2 ^ j) e).2
      = ((m * 2 ^ j : ℕ) : ℚ) * (2 : ℚ) ^ e := by
  by_cases hs : m * 2 ^ j < 2 ^ 53
  · simp only [round53n, if_pos hs]
  · simp only [round53n, if_neg hs]
    push_neg at hs
    have hm1 : 1 ≤ m := by
      rcases Nat.eq_zero_or_pos m with h0 | h1
      · subst h0
        rw [Nat.zero_mul] at hs
        have h53 : (0:ℕ) < 2 ^ 53 := Nat.pos_pow_of_pos _ (by norm_num)
        omega
      · exact h1
    have hM1 : 1 ≤ m * 2 ^ j :=
      Nat.mul_pos hm1 (Nat.pos_pow_of_pos _ (by norm_num))
    set s := nlog2 (m * 2 ^ j) - 52 with hsdef
    obtain ⟨hlo, hhi⟩ := nlog2_spec hM1
    have hup : m * 2 ^ j < 2 ^ (53 + j) := by
      calc m * 2 ^ j < 2 ^ 53 * 2 ^ j :=
            (Nat.mul_lt_mul_right (Nat.pos_pow_of_pos j (by norm_num))).mpr h
        _ = 2 ^ (53 + j) := by rw [← pow_add]
    have hnl : nlog2 (m * 2 ^ j) ≤ 52 + j := by
      by_contra hc
      push_neg at hc
      have : 2 ^ (53 + j) ≤ 2 ^ nlog2 (m * 2 ^ j) :=
        Nat.pow_le_pow_right (by norm_num) (by omega)
      omega
    have hsj : s ≤ j := by omega
    have hdvd : 2 ^ s ∣ m * 2 ^ j := Dvd.dvd.mul_left (pow_dvd_pow 2 hsj) m
    have hpos : (0 : ℕ) < 2 ^ s := Nat.pos_pow_of_pos _ (by norm_num)
    rw [rne_dvd hpos hdvd]
    have hqm : ((m * 2 ^ j / 2 ^ s : ℕ) : ℚ) = ((m * 2 ^ j : ℕ) : ℚ) / ((2 ^ s : ℕ) : ℚ) := by
      rw [eq_div_iff (by positivity : ((2 ^ s : ℕ) : ℚ) ≠ 0)]
      exact_mod_cast congrArg (fun n : ℕ => (n : ℚ)) (Nat.div_mul_cancel hdvd)
    rw [hqm]
    rw [zpow_add₀ (by norm_num : (2:ℚ) ≠ 0)]
    have h2s : ((2 ^ s : ℕ) : ℚ) = (2 : ℚ) ^ (s : ℤ) := by
      push_cast
      rw [← zpow_natCast (2 : ℚ) s]
    rw [h2s]
    field_simp
    ring

lemma round53_dyadicZ {z : ℤ} (j : ℕ) (e : ℤ) (h : z.natAbs < 2 ^ 53) :
    (round53 (z * 2 ^ j) e).val = ((z : ℚ) * (2 : ℚ) ^ (j : ℕ)) * (2 : ℚ) ^ e := by
  have habs : (z * 2 ^ j).natAbs = z.natAbs * 2 ^ j := by
    rw [Int.natAbs_mul]
    congr 1
    simp [Int.natAbs_pow]
  rw [round53_val, habs]
  have hdy := round53n_dyadic (m := z.natAbs) j e h
  by_cases hz : z * 2 ^ j < 0
  · rw [if_pos hz]
    have hzneg : z < 0 := by
      by_contra hc
      push_neg at hc
      have : 0 ≤ z * 2 ^ j := by positivity
      omega
    rw [neg_mul, hdy]
    push_cast [Int.cast_natAbs (R := ℚ)]
    rw [abs_of_neg (by exact_mod_cast hzneg : (z : ℚ) < 0)]
    ring
  · rw [if_neg hz]
    push_neg at hz
    have hznn : 0 ≤ z := by
      by_contra hc
      push_neg at hc
      have h2 : (0:ℤ) < 2 ^ j := by positivity
      nlinarith
    rw [hdy]
    push_cast [Int.cast_natAbs (R := ℚ)]
    rw [abs_of_nonneg (by exact_mod_cast hznn : (0:ℚ) ≤ (z : ℚ))]

/-- If the exact value of `M * 2 ^ e` is an integer `z` with `|z| < 2 ^ 53`
then rounding is exact. -/
lemma round53_exact_int (M : ℤ) (e : ℤ) (z : ℤ) (hz : z.natAbs < 2 ^ 53)
    (hval : (M : ℚ) * (2 : ℚ) ^ e = (z : ℚ)) : (round53 M e).val = (z : ℚ) := by
  by_cases he : 0 ≤ e
  · have hMe : M * 2 ^ e.toNat = z := by
      have h2 : ((M * 2 ^ e.toNat : ℤ) : ℚ) = (z : ℚ) := by
        push_cast
        rw [← zpow_natCast (2 : ℚ) e.toNat, Int.toNat_of_nonneg he]
        exact hval
      exact_mod_cast h2
    have hMabs : M.natAbs ≤ z.natAbs := by
      have h1 : M.natAbs * 2 ^ e.toNat = z.natAbs := by
        have h2 := congrArg Int.natAbs hMe
        rw [Int.natAbs_mul, Int.natAbs_pow] at h2
        simpa using h2
      calc M.natAbs = M.natAbs * 1 := (Nat.mul_one _).symm
        _ ≤ M.natAbs * 2 ^ e.toNat := Nat.mul_le_mul_left _ Nat.one_le_two_pow
        _ = z.natAbs := h1
    have hsmall := round53_small e (lt_of_le_of_lt hMabs hz)
    rw [hsmall]
    unfold FP.val
    simp only
    exact hval
  · push_neg at he
    set s := (-e).toNat with hsdef
    have hse : (s : ℤ) = -e := Int.toNat_of_nonneg (by omega)
    have hM : M = z * 2 ^ s := by
      have h2 : (M : ℚ) = ((z * 2 ^ s : ℤ) : ℚ) := by
        push_cast
        have hzv : (z : ℚ) = (M : ℚ) * (2 : ℚ) ^ e := hval.symm
        rw [hzv, mul_assoc, ← zpow_natCast (2 : ℚ) s, hse, ← zpow_add₀ (by norm_num : (2:ℚ) ≠ 0)]
        simp
      exact_mod_cast h2
    rw [hM, round53_dyadicZ s e hz]
    rw [mul_assoc, ← zpow_natCast (2 : ℚ) s, hse, ← zpow_add₀ (by norm_num : (2:ℚ) ≠ 0)]
    simp

lemma fmulZ_exact_int (d : ℤ) (x : FP) (z : ℤ) (hz : z.natAbs < 2 ^ 53)
    (hval : (d : ℚ) * x.val = (z : ℚ)) : (fmulZ d x).val = (z : ℚ) := by
  unfold fmulZ
  apply round53_exact_int _ _ _ hz
  unfold FP.val at hval
  push_cast
  rw [mul_assoc]
  exact hval

lemma faddZ_exact_int (r : ℤ) (x : FP) (z : ℤ) (hz : z.natAbs < 2 ^ 53)
    (hval : (r : ℚ) + x.val = (z : ℚ)) : (faddZ r x).val = (z : ℚ) := by
  unfold faddZ
  by_cases h : 0 ≤ x.exp
  · rw [if_pos h]
    apply round53_exact_int _ _ _ hz
    unfold FP.val at hval
    push_cast
    rw [← zpow_natCast (2 : ℚ) x.exp.toNat, Int.toNat_of_nonneg h]
    simpa using hval
  · rw [if_neg h]
    push_neg at h
    apply round53_exact_int _ _ _ hz
    unfold FP.val at hval
    push_cast
    rw [← zpow_natCast (2 : ℚ) (-x.exp).toNat, Int.toNat_of_nonneg (by omega : (0:ℤ) ≤ -x.exp)]
    rw [add_mul, mul_assoc, ← zpow_add₀ (by norm_num : (2:ℚ) ≠ 0)]
    simpa using hval

/-! ### Truncation toward zero -/

lemma val_nonneg_iff (x : FP) : 0 ≤ x.val ↔ 0 ≤ x.man := by
  unfold FP.val
  constructor
  · intro h
    by_contra hc
    push_neg at hc
    have h1 : (x.man : ℚ) < 0 := by exact_mod_cast hc
    nlinarith [zpow2_pos x.exp]
  · intro h
    have h1 : (0:ℚ) ≤ (x.man : ℚ) := by exact_mod_cast h
    positivity

lemma toIntTrunc_char (x : FP) (h : 0 ≤ x.val) :
    ((x.toIntTrunc : ℤ) : ℚ) ≤ x.val ∧ x.val < (x.toIntTrunc : ℚ) + 1 ∧ 0 ≤ x.toIntTrunc := by
  have hman : 0 ≤ x.man := (val_nonneg_iff x).mp h
  unfold FP.toIntTrunc
  by_cases he : 0 ≤ x.exp
  · rw [if_pos he]
    have hval : x.val = ((x.man * 2 ^ x.exp.toNat : ℤ) : ℚ) := by
      unfold FP.val
      push_cast
      rw [← zpow_natCast (2 : ℚ) x.exp.toNat, Int.toNat_of_nonneg he]
    rw [hval]
    refine ⟨le_refl _, by linarith, ?_⟩
    positivity
  · rw [if_neg he, if_pos hman]
    push_neg at he
    set s := (-x.exp).toNat with hsdef
    have hse : (s : ℤ) = -x.exp := Int.toNat_of_nonneg (by omega)
    have hpow : (0 : ℕ) < 2 ^ s := Nat.pos_pow_of_pos _ (by norm_num)
    set q := x.man.natAbs / 2 ^ s with hq
    have hmod := Nat.div_add_mod x.man.natAbs (2 ^ s)
    have hmlt : x.man.natAbs % 2 ^ s < 2 ^ s := Nat.mod_lt _ hpow
    rw [← hq] at hmod
    have hdiv : 2 ^ s * q ≤ x.man.natAbs ∧ x.man.natAbs < 2 ^ s * (q + 1) := by
      constructor
      · calc 2 ^ s * q ≤ 2 ^ s * q + x.man.natAbs % 2 ^ s := Nat.le_add_right _ _
          _ = x.man.natAbs := hmod
      · calc x.man.natAbs = 2 ^ s * q + x.man.natAbs % 2 ^ s := hmod.symm
          _ < 2 ^ s * q + 2 ^ s := by omega
          _ = 2 ^ s * (q + 1) := by ring
    have hvx : x.val = ((x.man.natAbs : ℕ) : ℚ) / ((2 ^ s : ℕ) : ℚ) := by
      unfold FP.val
      rw [natAbs_cast_abs, abs_of_nonneg (by exact_mod_cast hman : (0:ℚ) ≤ (x.man : ℚ))]
      rw [eq_div_iff (by positivity : ((2 ^ s : ℕ) : ℚ) ≠ 0)]
      push_cast
      rw [mul_assoc, ← zpow_natCast (2 : ℚ) s, hse, ← zpow_add₀ (by norm_num : (2:ℚ) ≠ 0)]
      simp
    have hposq : (0 : ℚ) < ((2 ^ s : ℕ) : ℚ) := by
      exact_mod_cast hpow
    refine ⟨?_, ?_, by positivity⟩
    · rw [hvx, le_div_iff hposq]
      push_cast
      have := hdiv.1
      have hc : ((2 ^ s * q : ℕ) : ℚ) ≤ ((x.man.natAbs : ℕ) : ℚ) := by exact_mod_cast this
      push_cast at hc
      linarith
    · rw [hvx, div_lt_iff hposq]
      have := hdiv.2
      have hc : ((x.man.natAbs : ℕ) : ℚ) < ((2 ^ s * (q + 1) : ℕ) : ℚ) := by exact_mod_cast this
      push_cast at hc
      push_cast
      linarith

lemma toIntTrunc_eq_int (x : FP) (z : ℤ) (hz : 0 ≤ z) (h : x.val = (z : ℚ)) :
    x.toIntTrunc = z := by
  have h0 : 0 ≤ x.val := by rw [h]; exact_mod_cast hz
  obtain ⟨h1, h2, _⟩ := toIntTrunc_char x h0
  rw [h] at h1 h2
  have ha : x.toIntTrunc ≤ z := by exact_mod_cast h1
  have hb : z < x.toIntTrunc + 1 := by exact_mod_cast h2
  omega

lemma le_toIntTrunc (x : FP) (z : ℤ) (h0 : 0 ≤ x.val) (h : (z : ℚ) ≤ x.val) :
    z ≤ x.toIntTrunc := by
  obtain ⟨_, h2, _⟩ := toIntTrunc_char x h0
  have : (z : ℚ) < (x.toIntTrunc : ℚ) + 1 := lt_of_le_of_lt h h2
  have hc : z < x.toIntTrunc + 1 := by exact_mod_cast this
  omega

lemma toIntTrunc_lt (x : FP) (z : ℤ) (h0 : 0 ≤ x.val) (h : x.val < (z : ℚ)) :
    x.toIntTrunc < z := by
  obtain ⟨h1, _, _⟩ := toIntTrunc_char x h0
  have : ((x.toIntTrunc : ℤ) : ℚ) < (z : ℚ) := lt_of_le_of_lt h1 h
  exact_mod_cast this

/-! ### The interpolation channel: closeness to the exact line, endpoints,
monotonicity -/

lemma lerp_val_close {c0 c1 : ℤ} (h0 : 0 ≤ c0) (h0b : c0 ≤ 255) (h1 : 0 ≤ c1) (h1b : c1 ≤ 255)
    {i : ℕ} (hi : i ≤ 20) :
    |(faddZ c0 (fmulZ (c1 - c0) (fdivZ (i : ℤ) steps))).val
      - ((c0 : ℚ) + ((c1 : ℚ) - (c0 : ℚ)) * ((i : ℚ) / 20))| ≤ 1 / 1000 := by
  have h2 : (0:ℚ) < 2 ^ 53 := by positivity
  have hsx : fdivZ ((i : ℕ) : ℤ) steps = fdivZ ((i : ℕ) : ℤ) 20 := rfl
  rw [hsx]
  set t := fdivZ ((i : ℕ) : ℤ) 20 with htdef
  set m := fmulZ (c1 - c0) t with hmdef
  set x : ℚ := (i : ℚ) / 20 with hx
  set dq : ℚ := (c1 : ℚ) - (c0 : ℚ) with hdq
  have hx0 : 0 ≤ x := by positivity
  have hx1 : x ≤ 1 := by
    rw [hx, div_le_one (by norm_num)]
    exact_mod_cast hi
  have hdabs : |dq| ≤ 255 := by
    rw [hdq, abs_le]
    constructor
    · have ha : (0:ℚ) ≤ (c1 : ℚ) := by exact_mod_cast h1
      have hb : (c0 : ℚ) ≤ 255 := by exact_mod_cast h0b
      linarith
    · have ha : (0:ℚ) ≤ (c0 : ℚ) := by exact_mod_cast h0
      have hb : (c1 : ℚ) ≤ 255 := by exact_mod_cast h1b
      linarith
  have ht1 : |t.val - x| ≤ 1 / 2 ^ 53 := by
    have herr := fdivZ_err ((i : ℕ) : ℤ) 20 (by norm_num)
    push_cast at herr
    rw [← hx] at herr
    have hxabs : |x| ≤ 1 := by rw [abs_of_nonneg hx0]; exact hx1
    calc |t.val - x| ≤ |x| / 2 ^ 53 := herr
      _ ≤ 1 / 2 ^ 53 := by gcongr
  have ht2 : |t.val| ≤ 2 := by
    have hsmall : (1:ℚ) / 2 ^ 53 ≤ 1 := by norm_num
    have htr : |t.val| = |x + (t.val - x)| := by congr 1; ring
    rw [htr]
    calc |x + (t.val - x)| ≤ |x| + |t.val - x| := abs_add _ _
      _ ≤ 1 + 1 / 2 ^ 53 := by
          rw [abs_of_nonneg hx0]
          linarith
      _ ≤ 2 := by linarith
  have hm1 : |m.val - dq * t.val| ≤ 510 / 2 ^ 53 := by
    have herr := fmulZ_err (c1 - c0) t
    push_cast at herr
    rw [← hdq] at herr
    have hb : |dq * t.val| ≤ 510 := by
      rw [abs_mul]
      calc |dq| * |t.val| ≤ 255 * 2 := mul_le_mul hdabs ht2 (abs_nonneg _) (by norm_num)
        _ = 510 := by norm_num
    calc |m.val - dq * t.val| ≤ |dq * t.val| / 2 ^ 53 := herr
      _ ≤ 510 / 2 ^ 53 := by gcongr
  have hm2 : |dq * t.val - dq * x| ≤ 255 / 2 ^ 53 := by
    rw [← mul_sub, abs_mul]
    calc |dq| * |t.val - x| ≤ 255 * (1 / 2 ^ 53) :=
          mul_le_mul hdabs ht1 (abs_nonneg _) (by norm_num)
      _ = 255 / 2 ^ 53 := by ring
  have hm3 : |m.val - dq * x| ≤ 765 / 2 ^ 53 := by
    calc |m.val - dq * x| ≤ |m.val - dq * t.val| + |dq * t.val - dq * x| := abs_sub_le _ _ _
      _ ≤ 510 / 2 ^ 53 + 255 / 2 ^ 53 := by linarith
      _ = 765 / 2 ^ 53 := by ring
  have hm4 : |m.val| ≤ 256 := by
    have hdx : |dq * x| ≤ 255 := by
      rw [abs_mul]
      calc |dq| * |x| ≤ 255 * 1 :=
            mul_le_mul hdabs (by rw [abs_of_nonneg hx0]; exact hx1) (abs_nonneg _) (by norm_num)
        _ = 255 := by norm_num
    have h765 : (765:ℚ) / 2 ^ 53 ≤ 1 := by norm_num
    have htr : |m.val| = |dq * x + (m.val - dq * x)| := by congr 1; ring
    rw [htr]
    calc |dq * x + (m.val - dq * x)| ≤ |dq * x| + |m.val - dq * x| := abs_add _ _
      _ ≤ 255 + 765 / 2 ^ 53 := by linarith
      _ ≤ 256 := by linarith
  have hs1 : |(faddZ c0 m).val - ((c0 : ℚ) + m.val)| ≤ 511 / 2 ^ 53 := by
    have herr := faddZ_err c0 m
    have hb : |(c0 : ℚ) + m.val| ≤ 511 := by
      have hc : |(c0 : ℚ)| ≤ 255 := by
        rw [abs_of_nonneg (by exact_mod_cast h0 : (0:ℚ) ≤ (c0 : ℚ))]
        exact_mod_cast h0b
      calc |(c0 : ℚ) + m.val| ≤ |(c0 : ℚ)| + |m.val| := abs_add _ _
        _ ≤ 255 + 256 := by linarith
        _ = 511 := by norm_num
    calc |(faddZ c0 m).val - ((c0 : ℚ) + m.val)| ≤ |(c0 : ℚ) + m.val| / 2 ^ 53 := herr
      _ ≤ 511 / 2 ^ 53 := by gcongr
  have hmid : ((c0 : ℚ) + m.val) - ((c0 : ℚ) + dq * x) = m.val - dq * x := by ring
  calc |(faddZ c0 m).val - ((c0 : ℚ) + dq * x)|
      ≤ |(faddZ c0 m).val - ((c0 : ℚ) + m.val)| + |((c0 : ℚ) + m.val) - ((c0 : ℚ) + dq * x)| :=
        abs_sub_le _ _ _
    _ = |(faddZ c0 m).val - ((c0 : ℚ) + m.val)| + |m.val - dq * x| := by rw [hmid]
    _ ≤ 511 / 2 ^ 53 + 765 / 2 ^ 53 := by linarith
    _ ≤ 1 / 1000 := by norm_num

/-- At the final step the computation is exact: `t = fl(20/20) = 1`,
the product and the sum are representable, so the write is the target. -/
lemma lerp_exact_last {c0 c1 : ℤ} (h0 : 0 ≤ c0) (h0b : c0 ≤ 255) (h1 : 0 ≤ c1) (h1b : c1 ≤ 255) :
    lerpChan c0 c1 20 = c1 := by
  unfold lerpChan
  have ht : fdivZ ((20 : ℕ) : ℤ) steps = ⟨2 ^ 52, -52⟩ := by decide
  have htv : (FP.mk (2 ^ 52) (-52)).val = 1 := by
    unfold FP.val
    have hzp : (2:ℚ) ^ (-52 : ℤ) = ((2:ℚ) ^ (52 : ℕ))⁻¹ := by
      rw [← zpow_natCast (2:ℚ) 52, ← zpow_neg]
      norm_num
    rw [hzp]
    push_cast
    rw [mul_inv_eq_one₀ (by positivity)]
    norm_num
  rw [ht]
  have hm : (fmulZ (c1 - c0) ⟨2 ^ 52, -52⟩).val = ((c1 - c0 : ℤ) : ℚ) := by
    apply fmulZ_exact_int
    · have : (c1 - c0).natAbs ≤ 255 := by omega
      calc (c1 - c0).natAbs ≤ 255 := this
        _ < 2 ^ 53 := by norm_num
    · rw [htv]
      push_cast
      ring
  have hs : (faddZ c0 (fmulZ (c1 - c0) ⟨2 ^ 52, -52⟩)).val = ((c1 : ℤ) : ℚ) := by
    apply faddZ_exact_int
    · have : c1.natAbs ≤ 255 := by omega
      omega
    · rw [hm]
      push_cast
      ring
  exact toIntTrunc_eq_int _ c1 h1 hs

/-- A channel with equal endpoints is written unchanged at every step. -/
lemma lerp_exact_const {c0 : ℤ} (h0 : 0 ≤ c0) (h0b : c0 ≤ 255) (i : ℕ) :
    lerpChan c0 c0 i = c0 := by
  unfold lerpChan
  have hm : (fmulZ (c0 - c0) (fdivZ ((i : ℕ) : ℤ) steps)).val = ((0 : ℤ) : ℚ) := by
    apply fmulZ_exact_int
    · norm_num
    · push_cast
      ring
  have hs : (faddZ c0 (fmulZ (c0 - c0) (fdivZ ((i : ℕ) : ℤ) steps))).val = ((c0 : ℤ) : ℚ) := by
    apply faddZ_exact_int
    · omega
    · rw [hm]
      push_cast
      ring
  exact toIntTrunc_eq_int _ c0 h0 hs

lemma lerpChan_between {c0 c1 : ℤ} (h0 : 0 ≤ c0) (h0b : c0 ≤ 255) (h1 : 0 ≤ c1) (h1b : c1 ≤ 255)
    {i : ℕ} (hi1 : 1 ≤ i) (hi : i ≤ 20) :
    min c0 c1 ≤ lerpChan c0 c1 i ∧ lerpChan c0 c1 i ≤ max c0 c1 := by
  have hlc : lerpChan c0 c1 i
      = (faddZ c0 (fmulZ (c1 - c0) (fdivZ (i : ℤ) steps))).toIntTrunc := rfl
  set F := faddZ c0 (fmulZ (c1 - c0) (fdivZ (i : ℤ) steps)) with hF
  rcases lt_trichotomy c0 c1 with hlt | heq | hgt
  · rw [min_eq_left hlt.le, max_eq_right hlt.le]
    by_cases hi20 : i = 20
    · subst hi20
      rw [lerp_exact_last h0 h0b h1 h1b]
      exact ⟨hlt.le, le_refl _⟩
    · have hi19 : i ≤ 19 := by omega
      have hclose := lerp_val_close h0 h0b h1 h1b hi
      rw [← hF] at hclose
      obtain ⟨hSlo, hShi⟩ := abs_le.mp hclose
      set S := F.val with hS
      set E : ℚ := (c0 : ℚ) + ((c1 : ℚ) - (c0 : ℚ)) * ((i : ℚ) / 20) with hE
      have hdq1 : (1 : ℚ) ≤ (c1 : ℚ) - (c0 : ℚ) := by
        have : (1 : ℤ) ≤ c1 - c0 := by omega
        exact_mod_cast this
      have hx20 : (1 : ℚ) / 20 ≤ (i : ℚ) / 20 := by
        gcongr
        exact_mod_cast hi1
      have hxhi : (i : ℚ) / 20 ≤ 19 / 20 := by
        gcongr
        exact_mod_cast hi19
      have hxnn : (0 : ℚ) ≤ (i : ℚ) / 20 := by positivity
      have hp1 : (1 : ℚ) * (1 / 20) ≤ ((c1 : ℚ) - (c0 : ℚ)) * ((i : ℚ) / 20) :=
        mul_le_mul hdq1 hx20 (by norm_num) (by linarith)
      have hp2 : (1 : ℚ) * (1 / 20) ≤ ((c1 : ℚ) - (c0 : ℚ)) * (1 - (i : ℚ) / 20) :=
        mul_le_mul hdq1 (by linarith) (by norm_num) (by linarith)
      have hexp : ((c1 : ℚ) - (c0 : ℚ)) * (1 - (i : ℚ) / 20)
          = ((c1 : ℚ) - (c0 : ℚ)) - ((c1 : ℚ) - (c0 : ℚ)) * ((i : ℚ) / 20) := by ring
      have hElo : (c0 : ℚ) + 1 / 20 ≤ E := by
        rw [hE]; linarith
      have hEhi : E ≤ (c1 : ℚ) - 1 / 20 := by
        rw [hE]; linarith
      have hc0nn : (0 : ℚ) ≤ (c0 : ℚ) := by exact_mod_cast h0
      have hSnn : 0 ≤ S := by linarith
      rw [hlc]
      constructor
      · exact le_toIntTrunc F c0 hSnn (by linarith)
      · have := toIntTrunc_lt F c1 hSnn (by linarith)
        omega
  · subst heq
    rw [lerp_exact_const h0 h0b]
    simp
  · rw [min_eq_right hgt.le, max_eq_left hgt.le]
    by_cases hi20 : i = 20
    · subst hi20
      rw [lerp_exact_last h0 h0b h1 h1b]
      exact ⟨le_refl _, hgt.le⟩
    · have hi19 : i ≤ 19 := by omega
      have hclose := lerp_val_close h0 h0b h1 h1b hi
      rw [← hF] at hclose
      obtain ⟨hSlo, hShi⟩ := abs_le.mp hclose
      set S := F.val with hS
      set E : ℚ := (c0 : ℚ) + ((c1 : ℚ) - (c0 : ℚ)) * ((i : ℚ) / 20) with hE
      have hgq1 : (1 : ℚ) ≤ (c0 : ℚ) - (c1 : ℚ) := by
        have : (1 : ℤ) ≤ c0 - c1 := by omega
        exact_mod_cast this
      have hx20 : (1 : ℚ) / 20 ≤ (i : ℚ) / 20 := by
        gcongr
        exact_mod_cast hi1
      have hxhi : (i : ℚ) / 20 ≤ 19 / 20 := by
        gcongr
        exact_mod_cast hi19
      have hxnn : (0 : ℚ) ≤ (i : ℚ) / 20 := by positivity
      have hp1 : (1 : ℚ) * (1 / 20) ≤ ((c0 : ℚ) - (c1 : ℚ)) * ((i : ℚ) / 20) :=
        mul_le_mul hgq1 hx20 (by norm_num) (by linarith)
      have hp2 : (1 : ℚ) * (1 / 20) ≤ ((c0 : ℚ) - (c1 : ℚ)) * (1 - (i : ℚ) / 20) :=
        mul_le_mul hgq1 (by linarith) (by norm_num) (by linarith)
      have hexp1 : ((c0 : ℚ) - (c1 : ℚ)) * ((i : ℚ) / 20)
          = -(((c1 : ℚ) - (c0 : ℚ)) * ((i : ℚ) / 20)) := by ring
      have hexp2 : ((c0 : ℚ) - (c1 : ℚ)) * (1 - (i : ℚ) / 20)
          = ((c0 : ℚ) - (c1 : ℚ)) + ((c1 : ℚ) - (c0 : ℚ)) * ((i : ℚ) / 20) := by ring
      have hElo : (c1 : ℚ) + 1 / 20 ≤ E := by
        rw [hE]; linarith
      have hEhi : E ≤ (c0 : ℚ) - 1 / 20 := by
        rw [hE]; linarith
      have hc1nn : (0 : ℚ) ≤ (c1 : ℚ) := by exact_mod_cast h1
      have hSnn : 0 ≤ S := by linarith
      rw [hlc]
      constructor
      · exact le_toIntTrunc F c1 hSnn (by linarith)
      · have := toIntTrunc_lt F c0 hSnn (by linarith)
        omega

lemma lerpChan_mono {c0 c1 : ℤ} (h0 : 0 ≤ c0) (h0b : c0 ≤ 255) (h1 : 0 ≤ c1) (h1b : c1 ≤ 255)
    {i j : ℕ} (hi1 : 1 ≤ i) (hij : i ≤ j) (hj : j ≤ 20) :
    (c0 ≤ c1 → lerpChan c0 c1 i ≤ lerpChan c0 c1 j) ∧
    (c1 ≤ c0 → lerpChan c0 c1 j ≤ lerpChan c0 c1 i) := by
  rcases eq_or_lt_of_le hij with heq | hlt
  · subst heq
    exact ⟨fun _ => le_refl _, fun _ => le_refl _⟩
  have hi20 : i ≤ 20 := by omega
  have hFi : lerpChan c0 c1 i
      = (faddZ c0 (fmulZ (c1 - c0) (fdivZ (i : ℤ) steps))).toIntTrunc := rfl
  have hFj : lerpChan c0 c1 j
      = (faddZ c0 (fmulZ (c1 - c0) (fdivZ (j : ℤ) steps))).toIntTrunc := rfl
  set Fi := faddZ c0 (fmulZ (c1 - c0) (fdivZ (i : ℤ) steps)) with hFidef
  set Fj := faddZ c0 (fmulZ (c1 - c0) (fdivZ (j : ℤ) steps)) with hFjdef
  have hclosei := lerp_val_close h0 h0b h1 h1b hi20
  have hclosej := lerp_val_close h0 h0b h1 h1b hj
  rw [← hFidef] at hclosei
  rw [← hFjdef] at hclosej
  obtain ⟨hilo, hihi⟩ := abs_le.mp hclosei
  obtain ⟨hjlo, hjhi⟩ := abs_le.mp hclosej
  have hxij : (1 : ℚ) / 20 ≤ (j : ℚ) / 20 - (i : ℚ) / 20 := by
    have : (i : ℚ) + 1 ≤ (j : ℚ) := by exact_mod_cast hlt
    linarith
  have hxi : (1 : ℚ) / 20 ≤ (i : ℚ) / 20 := by
    have : (1 : ℚ) ≤ (i : ℚ) := by exact_mod_cast hi1
    linarith
  have hxj : (1 : ℚ) / 20 ≤ (j : ℚ) / 20 := by linarith
  have hc0nn : (0 : ℚ) ≤ (c0 : ℚ) := by exact_mod_cast h0
  have hc1nn : (0 : ℚ) ≤ (c1 : ℚ) := by exact_mod_cast h1
  constructor
  · intro hc
    rcases eq_or_lt_of_le hc with hceq | hclt
    · rw [← hceq, lerp_exact_const h0 h0b, lerp_exact_const h0 h0b]
    · have hdq1 : (1 : ℚ) ≤ (c1 : ℚ) - (c0 : ℚ) := by
        have : (1 : ℤ) ≤ c1 - c0 := by omega
        exact_mod_cast this
      have hpd : (1 : ℚ) * (1 / 20) ≤ ((c1 : ℚ) - (c0 : ℚ)) * ((j : ℚ) / 20 - (i : ℚ) / 20) :=
        mul_le_mul hdq1 hxij (by norm_num) (by linarith)
      have hexp : ((c1 : ℚ) - (c0 : ℚ)) * ((j : ℚ) / 20 - (i : ℚ) / 20)
          = ((c1 : ℚ) - (c0 : ℚ)) * ((j : ℚ) / 20)
            - ((c1 : ℚ) - (c0 : ℚ)) * ((i : ℚ) / 20) := by ring
      have hpi : (1 : ℚ) * (1 / 20) ≤ ((c1 : ℚ) - (c0 : ℚ)) * ((i : ℚ) / 20) :=
        mul_le_mul hdq1 hxi (by norm_num) (by linarith)
      have hpj : (1 : ℚ) * (1 / 20) ≤ ((c1 : ℚ) - (c0 : ℚ)) * ((j : ℚ) / 20) :=
        mul_le_mul hdq1 hxj (by norm_num) (by linarith)
      have hSi : 0 ≤ Fi.val := by linarith
      have hSj : 0 ≤ Fj.val := by linarith
      have hSS : Fi.val ≤ Fj.val := by linarith
      obtain ⟨hti, _, _⟩ := toIntTrunc_char Fi hSi
      rw [hFi, hFj]
      exact le_toIntTrunc Fj Fi.toIntTrunc hSj (le_trans hti hSS)
  · intro hc
    rcases eq_or_lt_of_le hc with hceq | hclt
    · rw [hceq, lerp_exact_const h0 h0b, lerp_exact_const h0 h0b]
    · by_cases hj20 : j = 20
      · subst hj20
        rw [lerp_exact_last h0 h0b h1 h1b]
        have hbet := lerpChan_between h0 h0b h1 h1b hi1 hi20
        rw [min_eq_right hclt.le] at hbet
        exact hbet.1
      · have hj19 : j ≤ 19 := by omega
        have hgq1 : (1 : ℚ) ≤ (c0 : ℚ) - (c1 : ℚ) := by
          have : (1 : ℤ) ≤ c0 - c1 := by omega
          exact_mod_cast this
        have hxj19 : (j : ℚ) / 20 ≤ 19 / 20 := by
          have : (j : ℚ) ≤ 19 := by exact_mod_cast hj19
          linarith
        have hpd : (1 : ℚ) * (1 / 20) ≤ ((c0 : ℚ) - (c1 : ℚ)) * ((j : ℚ) / 20 - (i : ℚ) / 20) :=
          mul_le_mul hgq1 hxij (by norm_num) (by linarith)
        have hexpd : ((c0 : ℚ) - (c1 : ℚ)) * ((j : ℚ) / 20 - (i : ℚ) / 20)
            = ((c1 : ℚ) - (c0 : ℚ)) * ((i : ℚ) / 20)
              - ((c1 : ℚ) - (c0 : ℚ)) * ((j : ℚ) / 20) := by ring
        have hpj : (1 : ℚ) * (1 / 20) ≤ ((c0 : ℚ) - (c1 : ℚ)) * (1 - (j : ℚ) / 20) :=
          mul_le_mul hgq1 (by linarith) (by norm_num) (by linarith)
        have hexpj : ((c0 : ℚ) - (c1 : ℚ)) * (1 - (j : ℚ) / 20)
            = ((c0 : ℚ) - (c1 : ℚ)) + ((c1 : ℚ) - (c0 : ℚ)) * ((j : ℚ) / 20) := by ring
        have hSj : 0 ≤ Fj.val := by linarith
        have hpi : (1 : ℚ) * (1 / 20) ≤ ((c0 : ℚ) - (c1 : ℚ)) * (1 - (i : ℚ) / 20) :=
          mul_le_mul hgq1 (by linarith) (by norm_num) (by linarith)
        have hexpi : ((c0 : ℚ) - (c1 : ℚ)) * (1 - (i : ℚ) / 20)
            = ((c0 : ℚ) - (c1 : ℚ)) + ((c1 : ℚ) - (c0 : ℚ)) * ((i : ℚ) / 20) := by ring
        have hSi : 0 ≤ Fi.val := by linarith
        have hSS : Fj.val ≤ Fi.val := by linarith
        obtain ⟨htj, _, _⟩ := toIntTrunc_char Fj hSj
        rw [hFi, hFj]
        exact le_toIntTrunc Fi Fj.toIntTrunc hSi (le_trans htj hSS)

/-- The binary64 channel against the exact-arithmetic spec formula: they
differ by at most one, and the computed channel is within one of the exact
line.  (They do differ on some inputs — see the C7 counterexample.) -/
lemma lerpChan_vs_spec {c0 c1 : ℤ} (h0 : 0 ≤ c0) (h0b : c0 ≤ 255) (h1 : 0 ≤ c1) (h1b : c1 ≤ 255)
    {i : ℕ} (hi1 : 1 ≤ i) (hi : i ≤ 20) :
    (lerpChan c0 c1 i - specLerpChan c0 c1 i).natAbs ≤ 1 ∧
    |(lerpChan c0 c1 i : ℚ) - ((c0 : ℚ) + ((c1 : ℚ) - (c0 : ℚ)) * ((i : ℚ) / 20))| ≤ 1 := by
  set N : ℤ := c0 * 20 + (c1 - c0) * (i : ℤ) with hN
  have hiZ : ((i : ℕ) : ℤ) ≤ 20 := by exact_mod_cast hi
  have hi1Z : (1 : ℤ) ≤ ((i : ℕ) : ℤ) := by exact_mod_cast hi1
  have hNnn : 0 ≤ N := by
    have hsplit : N = c0 * (20 - (i : ℤ)) + c1 * (i : ℤ) := by rw [hN]; ring
    rw [hsplit]
    have h1p : 0 ≤ c0 * (20 - (i : ℤ)) := mul_nonneg h0 (by omega)
    have h2p : 0 ≤ c1 * (i : ℤ) := mul_nonneg h1 (by omega)
    omega
  have hspec : specLerpChan c0 c1 i = N / 20 := by
    unfold specLerpChan
    rw [← hN]
    exact Int.tdiv_eq_ediv hNnn (by norm_num)
  have hchar : 20 * (N / 20) ≤ N ∧ N < 20 * (N / 20) + 20 := by
    have hdm := Int.ediv_add_emod N 20
    have hm0 : 0 ≤ N % 20 := Int.emod_nonneg N (by norm_num)
    have hm1 : N % 20 < 20 := Int.emod_lt_of_pos N (by norm_num)
    omega
  have hspec0 : 0 ≤ N / 20 := Int.ediv_nonneg hNnn (by norm_num)
  set E : ℚ := (c0 : ℚ) + ((c1 : ℚ) - (c0 : ℚ)) * ((i : ℚ) / 20) with hE
  have hEN : E = (N : ℚ) / 20 := by
    rw [hE, hN, eq_div_iff (by norm_num : (20:ℚ) ≠ 0)]
    push_cast
    ring
  by_cases hceq : c0 = c1
  · subst hceq
    rw [lerp_exact_const h0 h0b]
    have hNc : N = 20 * c0 := by rw [hN]; ring
    have hsp : specLerpChan c0 c0 i = c0 := by
      rw [hspec, hNc, Int.mul_ediv_cancel_left c0 (by norm_num)]
    rw [hsp]
    constructor
    · simp
    · rw [hEN, hNc]
      push_cast
      rw [mul_comm, mul_div_assoc]
      norm_num
  by_cases hi20 : i = 20
  · subst hi20
    rw [lerp_exact_last h0 h0b h1 h1b]
    have hNc : N = 20 * c1 := by rw [hN]; push_cast; ring
    have hsp : specLerpChan c0 c1 20 = c1 := by
      rw [hspec, hNc, Int.mul_ediv_cancel_left c1 (by norm_num)]
    rw [hsp]
    constructor
    · simp
    · rw [hEN, hNc]
      push_cast
      rw [mul_comm, mul_div_assoc]
      norm_num
  -- main case: distinct endpoints, 1 ≤ i ≤ 19
  have hi19 : i ≤ 19 := by omega
  have hlc : lerpChan c0 c1 i
      = (faddZ c0 (fmulZ (c1 - c0) (fdivZ (i : ℤ) steps))).toIntTrunc := rfl
  set F := faddZ c0 (fmulZ (c1 - c0) (fdivZ (i : ℤ) steps)) with hF
  have hclose := lerp_val_close h0 h0b h1 h1b hi
  rw [← hF, ← hE] at hclose
  obtain ⟨hSlo, hShi⟩ := abs_le.mp hclose
  set S := F.val with hS
  have hx20 : (1 : ℚ) / 20 ≤ (i : ℚ) / 20 := by
    gcongr
    exact_mod_cast hi1
  have hxhi : (i : ℚ) / 20 ≤ 19 / 20 := by
    gcongr
    exact_mod_cast hi19
  have hxnn : (0 : ℚ) ≤ (i : ℚ) / 20 := by positivity
  have hc0nn : (0 : ℚ) ≤ (c0 : ℚ) := by exact_mod_cast h0
  have hc1nn : (0 : ℚ) ≤ (c1 : ℚ) := by exact_mod_cast h1
  have hE120 : (1 : ℚ) / 20 ≤ E := by
    rcases lt_or_gt_of_ne (fun h => hceq h : c0 ≠ c1) with hlt | hgt
    · have hdq1 : (1 : ℚ) ≤ (c1 : ℚ) - (c0 : ℚ) := by
        have : (1 : ℤ) ≤ c1 - c0 := by omega
        exact_mod_cast this
      have hp1 : (1 : ℚ) * (1 / 20) ≤ ((c1 : ℚ) - (c0 : ℚ)) * ((i : ℚ) / 20) :=
        mul_le_mul hdq1 hx20 (by norm_num) (by linarith)
      rw [hE]
      linarith
    · have hgq1 : (1 : ℚ) ≤ (c0 : ℚ) - (c1 : ℚ) := by
        have : (1 : ℤ) ≤ c0 - c1 := by omega
        exact_mod_cast this
      have hp2 : (1 : ℚ) * (1 / 20) ≤ ((c0 : ℚ) - (c1 : ℚ)) * (1 - (i : ℚ) / 20) :=
        mul_le_mul hgq1 (by linarith) (by norm_num) (by linarith)
      have hexp2 : ((c0 : ℚ) - (c1 : ℚ)) * (1 - (i : ℚ) / 20)
          = ((c0 : ℚ) - (c1 : ℚ)) + ((c1 : ℚ) - (c0 : ℚ)) * ((i : ℚ) / 20) := by ring
      rw [hE]
      linarith
  rw [hlc, hspec]
  by_cases hdvd : (20 : ℤ) ∣ N
  · -- the exact value is the integer N / 20
    have hNz : N = 20 * (N / 20) := (Int.ediv_mul_cancel hdvd).symm.trans (mul_comm _ _) |>.symm
      |>.symm
    have hEz : E = ((N / 20 : ℤ) : ℚ) := by
      rw [hEN]
      rw [eq_comm, eq_div_iff (by norm_num : (20:ℚ) ≠ 0)]
      exact_mod_cast congrArg (fun z : ℤ => (z : ℚ)) (Int.ediv_mul_cancel hdvd)
    set z := N / 20 with hz
    have hz1 : (1 : ℤ) ≤ z := by
      by_contra hcon
      push_neg at hcon
      have hz0 : z = 0 := by omega
      rw [hEz, hz0] at hE120
      norm_num at hE120
    have hSnn : 0 ≤ S := by
      have : ((z : ℤ) : ℚ) ≥ 1 := by exact_mod_cast hz1
      rw [hEz] at hSlo
      linarith
    have hlow : z - 1 ≤ F.toIntTrunc := by
      apply le_toIntTrunc F (z - 1) hSnn
      rw [hEz] at hSlo
      push_cast
      linarith
    have hhigh : F.toIntTrunc < z + 1 := by
      apply toIntTrunc_lt F (z + 1) hSnn
      rw [hEz] at hShi
      push_cast
      linarith
    constructor
    · omega
    · rw [hEz]
      have ha : z - 1 ≤ F.toIntTrunc := hlow
      have hb : F.toIntTrunc ≤ z := by omega
      rw [abs_le]
      constructor
      · have : ((z - 1 : ℤ) : ℚ) ≤ (F.toIntTrunc : ℚ) := by exact_mod_cast ha
        push_cast at this
        linarith
      · have : (F.toIntTrunc : ℚ) ≤ ((z : ℤ) : ℚ) := by exact_mod_cast hb
        linarith
  · -- the exact value is strictly between spec and spec + 1, one twentieth away
    have hf1 : 1 ≤ N % 20 := by
      have hm0 : 0 ≤ N % 20 := Int.emod_nonneg N (by norm_num)
      rcases eq_or_lt_of_le hm0 with h0m | h1m
      · exfalso
        exact hdvd (Int.dvd_of_emod_eq_zero h0m.symm)
      · omega
    have hf19 : N % 20 ≤ 19 := by
      have := Int.emod_lt_of_pos N (show (0:ℤ) < 20 by norm_num)
      omega
    have hEf : E = ((N / 20 : ℤ) : ℚ) + ((N % 20 : ℤ) : ℚ) / 20 := by
      rw [hEN]
      have hdm := Int.ediv_add_emod N 20
      have hcast : (N : ℚ) = 20 * ((N / 20 : ℤ) : ℚ) + ((N % 20 : ℤ) : ℚ) := by
        exact_mod_cast congrArg (fun z : ℤ => (z : ℚ)) hdm.symm
      rw [hcast]
      ring
    set z := N / 20 with hz
    have hElo2 : ((z : ℤ) : ℚ) + 1 / 20 ≤ E := by
      rw [hEf]
      have : (1 : ℚ) ≤ ((N % 20 : ℤ) : ℚ) := by exact_mod_cast hf1
      have h20 : (1 : ℚ) / 20 ≤ ((N % 20 : ℤ) : ℚ) / 20 := by gcongr
      linarith
    have hEhi2 : E ≤ ((z : ℤ) : ℚ) + 19 / 20 := by
      rw [hEf]
      have : ((N % 20 : ℤ) : ℚ) ≤ 19 := by exact_mod_cast hf19
      have h20 : ((N % 20 : ℤ) : ℚ) / 20 ≤ 19 / 20 := by gcongr
      linarith
    have hznn : (0 : ℚ) ≤ ((z : ℤ) : ℚ) := by exact_mod_cast hspec0
    have hSnn : 0 ≤ S := by linarith
    have hlow : z ≤ F.toIntTrunc := by
      apply le_toIntTrunc F z hSnn
      linarith
    have hhigh : F.toIntTrunc < z + 1 := by
      apply toIntTrunc_lt F (z + 1) hSnn
      push_cast
      linarith
    have heq : F.toIntTrunc = z := by omega
    rw [heq]
    constructor
    · simp
    · rw [hEf]
      have hform : ((z : ℤ) : ℚ) - (((z : ℤ) : ℚ) + ((N % 20 : ℤ) : ℚ) / 20)
          = -(((N % 20 : ℤ) : ℚ) / 20) := by ring
      rw [hform, abs_neg]
      have hfq1 : (0:ℚ) ≤ ((N % 20 : ℤ) : ℚ) := by
        have : (0:ℤ) ≤ N % 20 := by omega
        exact_mod_cast this
      have hfq19 : ((N % 20 : ℤ) : ℚ) ≤ 19 := by exact_mod_cast hf19
      rw [abs_of_nonneg (by positivity)]
      linarith

/-- The per-step delay value: `duration_ms / 20 / 1000.0` seconds is, up to
the binary64 roundings, `duration_ms / 20` milliseconds. -/
lemma stepDelay_close (d : ℕ) :
    |(stepDelaySeconds d).val * 1000 - (d : ℚ) / 20| ≤ (d : ℚ) / 2 ^ 50 := by
  have hsx : stepDelaySeconds d = fdivFP (fdivZ (d : ℤ) 20) 1000 := rfl
  rw [hsx]
  set t1 := fdivZ (d : ℤ) 20 with ht1
  have hdnn : (0 : ℚ) ≤ (d : ℚ) := by positivity
  have herr1 : |t1.val - (d : ℚ) / 20| ≤ ((d : ℚ) / 20) / 2 ^ 53 := by
    have := fdivZ_err (d : ℤ) 20 (by norm_num)
    push_cast at this
    rwa [abs_of_nonneg (by positivity : (0:ℚ) ≤ (d : ℚ) / 20)] at this
  have ht1abs : |t1.val| ≤ (d : ℚ) / 10 := by
    have htr : |t1.val| = |(d : ℚ) / 20 + (t1.val - (d : ℚ) / 20)| := by congr 1; ring
    rw [htr]
    have hsm : ((d : ℚ) / 20) / 2 ^ 53 ≤ (d : ℚ) / 20 := by
      rw [div_le_iff (by positivity : (0:ℚ) < 2 ^ 53)]
      nlinarith [hdnn]
    calc |(d : ℚ) / 20 + (t1.val - (d : ℚ) / 20)|
        ≤ |(d : ℚ) / 20| + |t1.val - (d : ℚ) / 20| := abs_add _ _
      _ ≤ (d : ℚ) / 20 + (d : ℚ) / 20 := by
          rw [abs_of_nonneg (by positivity : (0:ℚ) ≤ (d : ℚ) / 20)]
          linarith
      _ = (d : ℚ) / 10 := by ring
  have herr2 : |(fdivFP t1 1000).val - t1.val / 1000| ≤ |t1.val / 1000| / 2 ^ 53 :=
    fdivFP_err t1 1000 (by norm_num)
  have hstep : |(fdivFP t1 1000).val * 1000 - t1.val|
      ≤ |t1.val| / 2 ^ 53 := by
    have h1 : |(fdivFP t1 1000).val * 1000 - t1.val|
        = |(fdivFP t1 1000).val - t1.val / 1000| * 1000 := by
      rw [← abs_of_pos (show (0:ℚ) < 1000 by norm_num), ← abs_mul]
      congr 1
      have h1000 : ((1000 : ℕ) : ℚ) = (1000 : ℚ) := by norm_num
      field_simp
    rw [h1]
    have h2 : |t1.val / 1000| * 1000 = |t1.val| := by
      rw [abs_div]
      rw [abs_of_pos (show (0:ℚ) < 1000 by norm_num)]
      field_simp
    calc |(fdivFP t1 1000).val - t1.val / 1000| * 1000
        ≤ (|t1.val / 1000| / 2 ^ 53) * 1000 := by
          apply mul_le_mul_of_nonneg_right ?_ (by norm_num)
          have h1000 : ((1000 : ℕ) : ℚ) = (1000 : ℚ) := by norm_num
          rw [← h1000]
          exact herr2
      _ = (|t1.val / 1000| * 1000) / 2 ^ 53 := by ring
      _ = |t1.val| / 2 ^ 53 := by rw [h2]
  calc |(fdivFP t1 1000).val * 1000 - (d : ℚ) / 20|
      ≤ |(fdivFP t1 1000).val * 1000 - t1.val| + |t1.val - (d : ℚ) / 20| := abs_sub_le _ _ _
    _ ≤ |t1.val| / 2 ^ 53 + ((d : ℚ) / 20) / 2 ^ 53 := by linarith
    _ ≤ ((d : ℚ) / 10) / 2 ^ 53 + ((d : ℚ) / 20) / 2 ^ 53 := by gcongr
    _ = (d : ℚ) * (3 / (20 * 2 ^ 53)) := by ring
    _ ≤ (d : ℚ) * (1 / 2 ^ 50) := by
        apply mul_le_mul_of_nonneg_left ?_ hdnn
        norm_num
    _ = (d : ℚ) / 2 ^ 50 := by ring

/-! ### Shape of the `set_color` write sequence -/

lemma set_color_direct (col : String) (dur : Option ℕ) (cur : Option String)
    (h : dur = none ∨ dur = some 0 ∨ cur = none ∨
      ∃ c, cur = some c ∧ strLower c = strLower col) :
    set_color col dur cur = (some col, [col]) := by
  rcases h with h | h | h | ⟨c, hc, hlow⟩
  · subst h
    cases cur <;> rfl
  · subst h
    cases cur with
    | none => rfl
    | some c =>
        have hcond : ¬ ((0:ℕ) ≠ 0 ∧ c ≠ "" ∧ strLower c ≠ strLower col) := fun hcon => hcon.1 rfl
        simp only [set_color, if_neg hcond]
  · subst h
    cases dur <;> rfl
  · subst hc
    cases dur with
    | none => rfl
    | some d =>
        have hcond : ¬ (d ≠ 0 ∧ c ≠ "" ∧ strLower c ≠ strLower col) := fun hcon => hcon.2.2 hlow
        simp only [set_color, if_neg hcond]

lemma set_color_interp_writes {a b : String} {d : ℕ} {ca cb : ℤ × ℤ × ℤ}
    (hd : d ≠ 0) (ha : a ≠ "") (hne : strLower a ≠ strLower b)
    (hpa : hex_to_rgb a = some ca) (hpb : hex_to_rgb b = some cb) :
    (set_color b (some d) (some a)).2
      = (List.range steps).map fun j => rgb_to_hex (lerp3 ca cb (j + 1)) := by
  simp only [set_color]
  rw [if_pos ⟨hd, ha, hne⟩, hpa, hpb]

/-! ### Bounds and round-trip of the hex color parse -/

lemma hexDigitVal_lt {c : Char} {v : ℕ} (h : hexDigitVal c = some v) : v < 16 := by
  unfold hexDigitVal at h
  by_cases h1 : '0' ≤ c ∧ c ≤ '9'
  · rw [if_pos h1] at h
    have h9 : c.toNat ≤ 57 := h1.2
    have := Option.some.inj h
    omega
  · rw [if_neg h1] at h
    by_cases h2 : 'a' ≤ c ∧ c ≤ 'f'
    · rw [if_pos h2] at h
      have hf : c.toNat ≤ 102 := h2.2
      have := Option.some.inj h
      omega
    · rw [if_neg h2] at h
      by_cases h3 : 'A' ≤ c ∧ c ≤ 'F'
      · rw [if_pos h3] at h
        have hf : c.toNat ≤ 70 := h3.2
        have := Option.some.inj h
        omega
      · rw [if_neg h3] at h
        exact absurd h (by simp)

lemma parseHex_le2_lt {l : List Char} (hl : l.length ≤ 2) {v : ℕ}
    (h : parseHex l = some v) : v < 256 := by
  match l with
  | [] => exact absurd h (by simp [parseHex])
  | [c] =>
    unfold parseHex at h
    simp only [List.foldl] at h
    cases hv : hexDigitVal c with
    | none => rw [hv] at h; exact absurd h (by simp)
    | some v1 =>
      rw [hv] at h
      simp only [Option.bind, Option.map] at h
      have := Option.some.inj h
      have := hexDigitVal_lt hv
      omega
  | [c1, c2] =>
    unfold parseHex at h
    simp only [List.foldl] at h
    cases hv1 : hexDigitVal c1 with
    | none => rw [hv1] at h; exact absurd h (by simp)
    | some v1 =>
      rw [hv1] at h
      cases hv2 : hexDigitVal c2 with
      | none => rw [hv2] at h; exact absurd h (by simp)
      | some v2 =>
        rw [hv2] at h
        simp only [Option.bind, Option.map] at h
        have := Option.some.inj h
        have := hexDigitVal_lt hv1
        have := hexDigitVal_lt hv2
        omega
  | c1 :: c2 :: c3 :: rest => simp at hl

/-- Every channel produced by `hex_to_rgb` is an 8-bit value. -/
lemma hex_to_rgb_bounds {s : String} {c : ℤ × ℤ × ℤ} (h : hex_to_rgb s = some c) :
    (0 ≤ c.1 ∧ c.1 ≤ 255) ∧ (0 ≤ c.2.1 ∧ c.2.1 ≤ 255) ∧ (0 ≤ c.2.2 ∧ c.2.2 ≤ 255) := by
  unfold hex_to_rgb at h
  cases hp1 : parseHex (s.data.take 2) with
  | none => rw [hp1] at h; exact absurd h (by simp)
  | some r =>
    cases hp2 : parseHex ((s.data.drop 2).take 2) with
    | none => rw [hp1, hp2] at h; exact absurd h (by simp)
    | some g =>
      cases hp3 : parseHex ((s.data.drop 4).take 2) with
      | none => rw [hp1, hp2, hp3] at h; exact absurd h (by simp)
      | some b =>
        rw [hp1, hp2, hp3] at h
        have hc := Option.some.inj h
        have hr := parseHex_le2_lt (by simp [List.length_take]) hp1
        have hg := parseHex_le2_lt (by simp [List.length_take]) hp2
        have hb := parseHex_le2_lt (by simp [List.length_take]) hp3
        subst hc
        refine ⟨⟨?_, ?_⟩, ⟨?_, ?_⟩, ⟨?_, ?_⟩⟩ <;> simp <;> omega

/-- The hex round trip at the level of six characters. -/
lemma hex_roundtrip_data {a b c d e f : Char}
    (ha : isLowerHexDigit a) (hb : isLowerHexDigit b) (hc : isLowerHexDigit c)
    (hd : isLowerHexDigit d) (he : isLowerHexDigit e) (hf : isLowerHexDigit f) :
    (hex_to_rgb ⟨[a, b, c, d, e, f]⟩).map rgb_to_hex = some ⟨[a, b, c, d, e, f]⟩ := by
  obtain ⟨v1, he1, hl1, hr1⟩ := hexDigitVal_roundtrip ha
  obtain ⟨v2, he2, hl2, hr2⟩ := hexDigitVal_roundtrip hb
  obtain ⟨v3, he3, hl3, hr3⟩ := hexDigitVal_roundtrip hc
  obtain ⟨v4, he4, hl4, hr4⟩ := hexDigitVal_roundtrip hd
  obtain ⟨v5, he5, hl5, hr5⟩ := hexDigitVal_roundtrip he
  obtain ⟨v6, he6, hl6, hr6⟩ := hexDigitVal_roundtrip hf
  have hp1 := parseHex_pair he1 he2
  have hp2 := parseHex_pair he3 he4
  have hp3 := parseHex_pair he5 he6
  have hdata : (String.mk [a, b, c, d, e, f]).data = [a, b, c, d, e, f] := rfl
  have htake1 : ([a, b, c, d, e, f].take 2) = [a, b] := rfl
  have htake2 : (([a, b, c, d, e, f].drop 2).take 2) = [c, d] := rfl
  have htake3 : (([a, b, c, d, e, f].drop 4).take 2) = [e, f] := rfl
  unfold hex_to_rgb
  rw [hdata, htake1, htake2, htake3, hp1, hp2, hp3]
  simp only [Option.map]
  congr 1
  unfold rgb_to_hex
  have hf1 := fmt02x_parseHex ha hb hp1
  have hf2 := fmt02x_parseHex hc hd hp2
  have hf3 := fmt02x_parseHex he hf hp3
  rw [hf1, hf2, hf3]
  rfl

/-! ### The animation tick loop -/

lemma write_color_snd (o : WriteOutcome) (c : String) (cur : Option String) :
    (write_color o c cur).2 = Except.ok () := by
  cases o <;> rfl

lemma modeThreadRun_length (cols : List String) :
    ∀ (ocs : List WriteOutcome) (idx : ℕ) (hw : Option String), idx < cols.length →
      (modeThreadRun cols ocs idx hw).2.2.length = ocs.length := by
  intro ocs
  induction ocs with
  | nil => intro idx hw hidx; rfl
  | cons oc rest ih =>
    intro idx hw hidx
    cases hcg : cols[idx]? with
    | none =>
      exfalso
      have := List.getElem?_eq_none_iff.mp hcg
      omega
    | some c =>
      have hlen : 0 < cols.length := by omega
      have hstep : modeThreadRun cols (oc :: rest) idx hw
          = ((modeThreadRun cols rest ((idx + 1) % cols.length) ((write_color oc c hw).1)).1,
             (modeThreadRun cols rest ((idx + 1) % cols.length) ((write_color oc c hw).1)).2.1,
             c :: (modeThreadRun cols rest ((idx + 1) % cols.length) ((write_color oc c hw).1)).2.2)
          := by
        simp [modeThreadRun, hcg]
      rw [hstep]
      simp only [List.length_cons]
      rw [ih ((idx + 1) % cols.length) _ (Nat.mod_lt _ hlen)]

lemma modeThreadRun_pair_writes (A B : String) :
    ∀ (n : ℕ) (k : ℕ) (hw : Option String), k < 2 →
      (modeThreadRun [A, B] (List.replicate n .ok) k hw).2.2
        = (List.range n).map (fun j => if (k + j) % 2 = 0 then A else B) := by
  intro n
  induction n with
  | zero => intro k hw hk; rfl
  | succ n ih =>
    intro k hw hk
    have hrep : List.replicate (n + 1) (WriteOutcome.ok) = .ok :: List.replicate n .ok := rfl
    have hget : ([A, B] : List String)[k]? = some (if k = 0 then A else B) := by
      interval_cases k <;> rfl
    have hlen : ([A, B] : List String).length = 2 := rfl
    have hstep : (modeThreadRun [A, B] (List.replicate (n + 1) .ok) k hw).2.2
        = (if k = 0 then A else B)
          :: (modeThreadRun [A, B] (List.replicate n .ok) ((k + 1) % 2)
              ((write_color .ok (if k = 0 then A else B) hw).1)).2.2 := by
      rw [hrep]
      simp [modeThreadRun, hget]
    rw [hstep, ih ((k + 1) % 2) _ (Nat.mod_lt _ (by norm_num))]
    rw [List.range_succ_eq_map]
    simp only [List.map_cons, List.map_map]
    congr 1
    · have h0 : (k + 0) % 2 = k % 2 := by omega
      rw [h0]
      interval_cases k <;> rfl
    · apply List.map_congr_left
      intro j _
      have harith : ((k + 1) % 2 + j) % 2 = (k + Nat.succ j) % 2 := by omega
      simp [Function.comp, harith]

/-! ### Controller traces -/

lemma startsAfterStop_none (evs : List Event) : startsAfterStop none evs :=
  fun _ _ _ => Or.inl rfl

lemma startsAfterStop_of_head_stop (t : ThreadHandle) (rest : List Event) :
    startsAfterStop (some t) (Event.stopJoin t.mode :: rest) := by
  intro i m hi
  right
  refine ⟨0, t.mode, ?_, by simp⟩
  cases i with
  | zero => simp at hi
  | succ n => omega

lemma stop_active_thread_events {st : Controller} {t : ThreadHandle}
    (hat : st.active_thread = some t) :
    (stop_active_thread st).2 = [Event.stopJoin t.mode] := by
  simp [stop_active_thread, hat]

/-- Any operation whose trace is the stop trace followed by anything
satisfies the stop-before-start discipline. -/
lemma startsAfterStop_stop_first (st : Controller) (rest : List Event) :
    startsAfterStop st.active_thread ((stop_active_thread st).2 ++ rest) := by
  cases hat : st.active_thread with
  | none => exact startsAfterStop_none _
  | some t =>
    rw [stop_active_thread_events hat]
    exact startsAfterStop_of_head_stop t rest

lemma activate_mode_events (st : Controller) (mode : String) (b : Bool) :
    ∃ rest, (activate_mode st mode b).2 = (stop_active_thread st).2 ++ rest := by
  unfold activate_mode
  split_ifs <;> first
    | exact ⟨_, rfl⟩
    | exact ⟨[], (List.append_nil _).symm⟩

lemma stop_active_thread_clears (st : Controller) :
    (stop_active_thread st).1.active_thread = none := by
  unfold stop_active_thread
  cases hat : st.active_thread <;> simp [hat]

lemma stop_active_thread_hw (st : Controller) : (stop_active_thread st).1.hw = st.hw := by
  unfold stop_active_thread
  cases hat : st.active_thread <;> simp [hat]

lemma activate_mode_unknown (st : Controller) (mode : String) (b : Bool)
    (h1 : mode ≠ "Static Color") (h2 : mode ≠ "Rainbow")
    (h3 : mode ≠ "New Year's") (h4 : mode ≠ "Police") :
    activate_mode st mode b = ((stop_active_thread st).1, (stop_active_thread st).2) := by
  unfold activate_mode
  rw [if_neg h1, if_neg h2, if_neg h3, if_neg h4]

lemma stop_events_no_write (st : Controller) (c : String) :
    Event.write c ∉ (stop_active_thread st).2 := by
  unfold stop_active_thread
  cases hat : st.active_thread <;> simp [hat]

/-! ### Rainbow -/

lemma rainbowRun_hue : ∀ (n : ℕ) (st : RainbowSt), (rainbowRun n st).1.hue = st.hue + n := by
  intro n
  induction n with
  | zero => intro st; rfl
  | succ n ih =>
    intro st
    have hstep : (rainbowRun (n + 1) st).1 = (rainbowRun n ⟨st.hue + 1⟩).1 := rfl
    rw [hstep, ih]
    simp
    omega

lemma rainbowColorName_zero : rainbowColorName 0 = "ff0000" := by decide

lemma rainbowTick_periodic (st : RainbowSt) :
    (rainbowTick ⟨st.hue + 360⟩).2 = (rainbowTick st).2 := by
  unfold rainbowTick
  simp [Nat.add_mod_right]

/-! ## The claims -/

/-- C9: for every valid 6-hex-digit lowercase string `s`, converting to an
RGB triple and back is the identity: `rgb_to_hex (hex_to_rgb s) = s`. -/
theorem C9_hex_roundtrip (s : String) (h6 : s.data.length = 6)
    (hhex : ∀ c ∈ s.data, isLowerHexDigit c) :
    (hex_to_rgb s).map rgb_to_hex = some s := by
  obtain ⟨l⟩ := s
  rcases l with _ | ⟨a, l⟩
  · simp at h6
  rcases l with _ | ⟨b, l⟩
  · simp at h6
  rcases l with _ | ⟨c, l⟩
  · simp at h6
  rcases l with _ | ⟨d, l⟩
  · simp at h6
  rcases l with _ | ⟨e, l⟩
  · simp at h6
  rcases l with _ | ⟨f, l⟩
  · simp at h6
  rcases l with _ | ⟨g, l⟩
  · exact hex_roundtrip_data (hhex a (by simp)) (hhex b (by simp)) (hhex c (by simp))
      (hhex d (by simp)) (hhex e (by simp)) (hhex f (by simp))
  · simp at h6

/-- Witness for C9 at the concrete string 1a2b3c. -/
theorem C9_hex_roundtrip_witness :
    ("1a2b3c" : String).data.length = 6 ∧
    (hex_to_rgb "1a2b3c").map rgb_to_hex = some "1a2b3c" :=
  ⟨by decide, C9_hex_roundtrip "1a2b3c" (by decide) (by decide)⟩

/-- C2: `set_color` performs exactly one hardware write, of the target
directly, whenever the duration is unset or zero, the current hardware color
is unset, or the current color equals the target case-insensitively; in
particular one write for every duration when the target equals the current
color. -/
theorem C2_direct_write (col : String) (dur : Option ℕ) (cur : Option String)
    (h : dur = none ∨ dur = some 0 ∨ cur = none ∨
      ∃ c, cur = some c ∧ strLower c = strLower col) :
    (set_color col dur cur).2 = [col] ∧ (set_color col dur cur).2.length = 1 := by
  rw [set_color_direct col dur cur h]
  exact ⟨rfl, rfl⟩

/-- Witness for C2: equal current color up to case, with a positive duration. -/
theorem C2_direct_write_witness :
    strLower "FF0000" = strLower "ff0000" ∧
    (set_color "ff0000" (some 5) (some "FF0000")).2 = ["ff0000"] :=
  ⟨by decide, (C2_direct_write "ff0000" (some 5) (some "FF0000")
      (Or.inr (Or.inr (Or.inr ⟨"FF0000", rfl, by decide⟩)))).1⟩

/-- C1 is false as stated: transitioning from hardware color 000000 to
target 000001 with duration 100, the first of the 20 writes equals the
current color 000000, which is not strictly between the endpoints. -/
theorem C1_counterexample :
    ((set_color "000001" (some 100) (some "000000")).2).head? = some "000000" ∧
    (set_color "000001" (some 100) (some "000000")).2.length = 20 ∧
    hex_to_rgb "000000" = some (0, 0, 0) ∧
    hex_to_rgb "000001" = some (0, 0, 1) ∧
    ¬ colorStrictlyBetween (0, 0, 0) (0, 0, 0) (0, 0, 1) := by
  refine ⟨by decide, by decide, by decide, by decide, by decide⟩

/-- C1 amended: for current color `a` and target `b` (valid hex, differing
case-insensitively) and duration `d ≠ 0`, the transition emits exactly 20
writes; each write `j` is the binary64 interpolation at step `j + 1`; the
first write lies componentwise (weakly, possibly equal to an endpoint when
channel differences are small) between `a` and `b`; the last write is the
normalized hex form of `b`; and each channel sequence is monotonic,
non-decreasing when that channel of `b` is at least that of `a` and
non-increasing otherwise. -/
theorem C1_transition_shape (a b : String) (ca cb : ℤ × ℤ × ℤ) (d : ℕ)
    (hpa : hex_to_rgb a = some ca) (hpb : hex_to_rgb b = some cb)
    (hd : d ≠ 0) (ha : a ≠ "") (hne : strLower a ≠ strLower b) :
    (set_color b (some d) (some a)).2.length = 20 ∧
    (∀ j : ℕ, j < 20 → (set_color b (some d) (some a)).2[j]?
        = some (rgb_to_hex (lerp3 ca cb (j + 1)))) ∧
    (set_color b (some d) (some a)).2.head? = some (rgb_to_hex (lerp3 ca cb 1)) ∧
    colorBetween (lerp3 ca cb 1) ca cb ∧
    (set_color b (some d) (some a)).2.getLast? = some (rgb_to_hex cb) ∧
    (∀ i j : ℕ, 1 ≤ i → i ≤ j → j ≤ 20 →
      ((ca.1 ≤ cb.1 → lerpChan ca.1 cb.1 i ≤ lerpChan ca.1 cb.1 j) ∧
        (cb.1 ≤ ca.1 → lerpChan ca.1 cb.1 j ≤ lerpChan ca.1 cb.1 i)) ∧
      ((ca.2.1 ≤ cb.2.1 → lerpChan ca.2.1 cb.2.1 i ≤ lerpChan ca.2.1 cb.2.1 j) ∧
        (cb.2.1 ≤ ca.2.1 → lerpChan ca.2.1 cb.2.1 j ≤ lerpChan ca.2.1 cb.2.1 i)) ∧
      ((ca.2.2 ≤ cb.2.2 → lerpChan ca.2.2 cb.2.2 i ≤ lerpChan ca.2.2 cb.2.2 j) ∧
        (cb.2.2 ≤ ca.2.2 → lerpChan ca.2.2 cb.2.2 j ≤ lerpChan ca.2.2 cb.2.2 i))) := by
  obtain ⟨⟨ha1, ha2⟩, ⟨ha3, ha4⟩, ha5, ha6⟩ := hex_to_rgb_bounds hpa
  obtain ⟨⟨hb1, hb2⟩, ⟨hb3, hb4⟩, hb5, hb6⟩ := hex_to_rgb_bounds hpb
  have hw := set_color_interp_writes hd ha hne hpa hpb
  rw [show steps = 20 from rfl] at hw
  have h20 : (20 : ℕ) = 19 + 1 := rfl
  refine ⟨?_, ?_, ?_, ?_, ?_, ?_⟩
  · rw [hw]
    simp
  · intro j hj
    rw [hw, List.getElem?_map, List.getElem?_range hj]
    rfl
  · rw [hw, h20, List.range_succ_eq_map]
    rfl
  · have hbetr := lerpChan_between ha1 ha2 hb1 hb2 (i := 1) le_rfl (by norm_num)
    have hbetg := lerpChan_between ha3 ha4 hb3 hb4 (i := 1) le_rfl (by norm_num)
    have hbetb := lerpChan_between ha5 ha6 hb5 hb6 (i := 1) le_rfl (by norm_num)
    exact ⟨hbetr, hbetg, hbetb⟩
  · rw [hw, h20, List.range_succ, List.map_append]
    have hl : lerp3 ca cb 20 = cb := by
      unfold lerp3
      rw [lerp_exact_last ha1 ha2 hb1 hb2, lerp_exact_last ha3 ha4 hb3 hb4,
        lerp_exact_last ha5 ha6 hb5 hb6]
    simp [hl]
  · intro i j hi1 hij hj
    exact ⟨lerpChan_mono ha1 ha2 hb1 hb2 hi1 hij hj,
      lerpChan_mono ha3 ha4 hb3 hb4 hi1 hij hj,
      lerpChan_mono ha5 ha6 hb5 hb6 hi1 hij hj⟩

/-- Witness for the amended C1 at 000000 → ff0000, duration 100. -/
theorem C1_transition_shape_witness :
    (hex_to_rgb "000000" = some ((0 : ℤ), (0 : ℤ), (0 : ℤ)) ∧
      strLower "000000" ≠ strLower "ff0000") ∧
    (set_color "ff0000" (some 100) (some "000000")).2.length = 20 :=
  ⟨⟨by decide, by decide⟩,
    (C1_transition_shape "000000" "ff0000" (0, 0, 0) (255, 0, 0) 100
      (by decide) (by decide) (by decide) (by decide) (by decide)).1⟩

/-- C7 is false as stated: the channels are computed in binary64, which can
differ from truncating the exact value `start + (end - start) * (i/20)`.
With current 000000 and target 5a0000 (red channel 0 → 90), step 14 writes
red channel 62 (hex 3e) while the exact formula truncates to 63. -/
theorem C7_counterexample :
    (set_color "5a0000" (some 100) (some "000000")).2[13]? = some "3e0000" ∧
    lerpChan 0 90 14 = 62 ∧
    specLerpChan 0 90 14 = 63 ∧
    lerpChan 0 90 14 ≠ specLerpChan 0 90 14 := by
  refine ⟨by decide, by decide, by decide, by decide⟩

/-- C7 amended: during an interpolated transition the emitted channels at
step `i` are the truncation toward zero of the binary64 evaluation of
`start + (end - start) * (i/20)`; they stay within `[0, 255]` and differ
from the exact-arithmetic truncation by at most 1; the per-step delay in
seconds, times 1000, is `duration_ms / 20` up to binary64 rounding error. -/
theorem C7_step_formula (a b : String) (ca cb : ℤ × ℤ × ℤ) (d : ℕ) (i : ℕ)
    (hpa : hex_to_rgb a = some ca) (hpb : hex_to_rgb b = some cb)
    (hd : d ≠ 0) (ha : a ≠ "") (hne : strLower a ≠ strLower b)
    (hi1 : 1 ≤ i) (hi : i ≤ 20) :
    (set_color b (some d) (some a)).2[i - 1]? = some (rgb_to_hex (lerp3 ca cb i)) ∧
    (0 ≤ (lerp3 ca cb i).1 ∧ (lerp3 ca cb i).1 ≤ 255) ∧
    (0 ≤ (lerp3 ca cb i).2.1 ∧ (lerp3 ca cb i).2.1 ≤ 255) ∧
    (0 ≤ (lerp3 ca cb i).2.2 ∧ (lerp3 ca cb i).2.2 ≤ 255) ∧
    ((lerp3 ca cb i).1 - specLerpChan ca.1 cb.1 i).natAbs ≤ 1 ∧
    ((lerp3 ca cb i).2.1 - specLerpChan ca.2.1 cb.2.1 i).natAbs ≤ 1 ∧
    ((lerp3 ca cb i).2.2 - specLerpChan ca.2.2 cb.2.2 i).natAbs ≤ 1 ∧
    |(stepDelaySeconds d).val * 1000 - (d : ℚ) / 20| ≤ (d : ℚ) / 2 ^ 50 := by
  obtain ⟨⟨ha1, ha2⟩, ⟨ha3, ha4⟩, ha5, ha6⟩ := hex_to_rgb_bounds hpa
  obtain ⟨⟨hb1, hb2⟩, ⟨hb3, hb4⟩, hb5, hb6⟩ := hex_to_rgb_bounds hpb
  have hw := set_color_interp_writes hd ha hne hpa hpb
  rw [show steps = 20 from rfl] at hw
  have hbetr := lerpChan_between ha1 ha2 hb1 hb2 hi1 hi
  have hbetg := lerpChan_between ha3 ha4 hb3 hb4 hi1 hi
  have hbetb := lerpChan_between ha5 ha6 hb5 hb6 hi1 hi
  refine ⟨?_, ?_, ?_, ?_, ?_, ?_, ?_, stepDelay_close d⟩
  · rw [hw, List.getElem?_map, List.getElem?_range (by omega : i - 1 < 20)]
    simp only [Option.map_some']
    rw [show i - 1 + 1 = i from by omega]
  · exact ⟨le_trans (le_min ha1 hb1) hbetr.1, le_trans hbetr.2 (max_le ha2 hb2)⟩
  · exact ⟨le_trans (le_min ha3 hb3) hbetg.1, le_trans hbetg.2 (max_le ha4 hb4)⟩
  · exact ⟨le_trans (le_min ha5 hb5) hbetb.1, le_trans hbetb.2 (max_le ha6 hb6)⟩
  · exact (lerpChan_vs_spec ha1 ha2 hb1 hb2 hi1 hi).1
  · exact (lerpChan_vs_spec ha3 ha4 hb3 hb4 hi1 hi).1
  · exact (lerpChan_vs_spec ha5 ha6 hb5 hb6 hi1 hi).1

/-- Witness for the amended C7 at 000000 → 5a0000, duration 100, step 14. -/
theorem C7_step_formula_witness :
    (hex_to_rgb "5a0000" = some ((90 : ℤ), (0 : ℤ), (0 : ℤ)) ∧ (14 : ℕ) ≤ 20) ∧
    (set_color "5a0000" (some 100) (some "000000")).2[13]?
      = some (rgb_to_hex (lerp3 (0, 0, 0) (90, 0, 0) 14)) :=
  ⟨⟨by decide, by decide⟩,
    (C7_step_formula "000000" "5a0000" (0, 0, 0) (90, 0, 0) 100 14
      (by decide) (by decide) (by decide) (by decide) (by decide)
      (by decide) (by decide)).1⟩

/-- C5 is false as stated: a failing hardware write during the one-shot
static path returns `Except.ok ()`, exactly like a successful one — the
caller cannot observe the failure, because `write_color` catches and only
logs every exception. -/
theorem C5_counterexample :
    (write_color (.fail .permission) "ff0000" (some "00ff00")).2 = Except.ok () ∧
    (write_color .ok "ff0000" (some "00ff00")).2 = Except.ok () ∧
    (write_color (.fail .permission) "ff0000" (some "00ff00")).2
      = (write_color .ok "ff0000" (some "00ff00")).2 :=
  ⟨rfl, rfl, rfl⟩

/-- C5 amended: write failures are swallowed in both contexts: every
`write_color` call returns normally regardless of outcome, and the
animation tick loop runs all its ticks whatever the per-tick outcomes. -/
theorem C5_error_swallowed :
    (∀ (o : WriteOutcome) (c : String) (cur : Option String),
      (write_color o c cur).2 = Except.ok ()) ∧
    (∀ (ocs : List WriteOutcome) (hw : Option String),
      (modeThreadRun newYearsThread.colors ocs 0 hw).2.2.length = ocs.length) := by
  refine ⟨write_color_snd, ?_⟩
  intro ocs hw
  exact modeThreadRun_length _ ocs 0 hw (by decide)

/-- C6: the hardware write updates the stored last color to the written
color exactly when the raw write succeeds, and leaves it unchanged on every
classified failure. -/
theorem C6_state_update (c : String) (cur : Option String) :
    ((write_color .ok c cur).1 = some c ∧ rawWrite .ok = Except.ok ()) ∧
    (∀ e : IoError, (write_color (.fail e) c cur).1 = cur ∧
      rawWrite (.fail e) = Except.error e) :=
  ⟨⟨rfl, rfl⟩, fun _ => ⟨rfl, rfl⟩⟩

/-- C3: at most one animation is live at any instant: every operation that
can start a thread first emits the stop-and-join of the previously active
thread before any start event; `stop_active_thread` empties the single
slot, and `start_thread` leaves exactly the new handle in it. -/
theorem C3_single_live_animation (st : Controller) (m : AnimMode) (mode : String)
    (b : Bool) (c : String) :
    startsAfterStop st.active_thread (start_thread st m).2 ∧
    startsAfterStop st.active_thread (activate_mode st mode b).2 ∧
    startsAfterStop st.active_thread (apply_static_color st c).2 ∧
    startsAfterStop st.active_thread (exit_app st).2 ∧
    (stop_active_thread st).1.active_thread = none ∧
    (start_thread st m).1.active_thread = some ⟨m⟩ := by
  refine ⟨?_, ?_, ?_, ?_, stop_active_thread_clears st, rfl⟩
  · have hs : (start_thread st m).2 = (stop_active_thread st).2 ++ [Event.startT m] := rfl
    rw [hs]
    exact startsAfterStop_stop_first st _
  · obtain ⟨rest, hr⟩ := activate_mode_events st mode b
    rw [hr]
    exact startsAfterStop_stop_first st _
  · have hs : (apply_static_color st c).2 = (stop_active_thread st).2
        ++ (set_color c (some STATIC_DURATION_MS) (stop_active_thread st).1.hw).2.map .write :=
      rfl
    rw [hs]
    exact startsAfterStop_stop_first st _
  · have hs : (exit_app st).2 = (stop_active_thread st).2 ++ [] := (List.append_nil _).symm
    rw [hs]
    exact startsAfterStop_stop_first st _

/-- C10: activating an unrecognized mode name stops and joins any active
thread, performs no hardware write, and leaves the last hardware color
unchanged. -/
theorem C10_unknown_mode (st : Controller) (mode : String) (b : Bool)
    (h1 : mode ≠ "Static Color") (h2 : mode ≠ "Rainbow")
    (h3 : mode ≠ "New Year's") (h4 : mode ≠ "Police") :
    (activate_mode st mode b).1.hw = st.hw ∧
    (activate_mode st mode b).1.active_thread = none ∧
    (∀ c, Event.write c ∉ (activate_mode st mode b).2) ∧
    (activate_mode st mode b).2 = (stop_active_thread st).2 := by
  rw [activate_mode_unknown st mode b h1 h2 h3 h4]
  exact ⟨stop_active_thread_hw st, stop_active_thread_clears st,
    fun c => stop_events_no_write st c, rfl⟩

/-- Witness for C10 at the unknown mode name Breathing. -/
theorem C10_unknown_mode_witness :
    ("Breathing" ≠ "Static Color") ∧
    (activate_mode ⟨some ⟨AnimMode.rainbow⟩, some "ff0000", "00ff00", "Rainbow"⟩
      "Breathing" false).1.hw = some "ff0000" :=
  ⟨by decide,
    (C10_unknown_mode ⟨some ⟨AnimMode.rainbow⟩, some "ff0000", "00ff00", "Rainbow"⟩
      "Breathing" false (by decide) (by decide) (by decide) (by decide)).1⟩

/-- C4 is false as stated: the rainbow hue counter is never reduced modulo
360; after 360 ticks from hue 0 it holds 360, which is outside `[0, 360)`
and differs from its starting value. -/
theorem C4_counterexample :
    (rainbowRun 360 ⟨0⟩).1.hue = 360 ∧
    ¬ ((rainbowRun 360 ⟨0⟩).1.hue < 360) ∧
    (rainbowRun 360 ⟨0⟩).1.hue ≠ 0 := by
  have h := rainbowRun_hue 360 ⟨0⟩
  refine ⟨by rw [h], by rw [h]; omega, by rw [h]; omega⟩

/-- C4 amended: the hue counter increments by 1 on every tick without
reduction (after `n` ticks it has advanced by `n`); the written color only
depends on `hue % 360`, making the writes 360-periodic in the counter; and
hue 0 writes `ff0000` (the Qt HSV conversion of hue 0 at full saturation
and value). -/
theorem C4_rainbow (st : RainbowSt) (n : ℕ) :
    (rainbowTick st).1.hue = st.hue + 1 ∧
    (rainbowTick st).2 = rainbowColorName (st.hue % 360) ∧
    (rainbowRun n st).1.hue = st.hue + n ∧
    (rainbowTick ⟨st.hue + 360⟩).2 = (rainbowTick st).2 ∧
    rainbowColorName 0 = "ff0000" :=
  ⟨rfl, rfl, rainbowRun_hue n st, rainbowTick_periodic st, rainbowColorName_zero⟩

/-- C8: the two-color alternation writes its color pair in order starting
with the first color; the New Year's thread uses red/green at 500 ms and
the Police thread red/blue at 100 ms. -/
theorem C8_alternation (n : ℕ) (hw : Option String) :
    (modeThreadRun newYearsThread.colors (List.replicate n .ok) 0 hw).2.2
      = (List.range n).map (fun j => if j % 2 = 0 then "ff0000" else "00ff00") ∧
    (modeThreadRun policeThread.colors (List.replicate n .ok) 0 hw).2.2
      = (List.range n).map (fun j => if j % 2 = 0 then "ff0000" else "0000ff") ∧
    newYearsThread.colors = ["ff0000", "00ff00"] ∧ newYearsThread.delay_ms = 500 ∧
    policeThread.colors = ["ff0000", "0000ff"] ∧ policeThread.delay_ms = 100 := by
  refine ⟨?_, ?_, rfl, rfl, rfl, rfl⟩
  · have h := modeThreadRun_pair_writes "ff0000" "00ff00" n 0 hw (by norm_num)
    simpa using h
  · have h := modeThreadRun_pair_writes "ff0000" "0000ff" n 0 hw (by norm_num)
    simpa using h

end OmenRgb
